import Mathlib

/-!
Verification of the atomic-stream-terminal client against its specification.

This file gives a shallow embedding, in Lean 4, of the parts of the
TypeScript source that the verified properties are about:

* `src/state/buffers/ring-buffer.ts` — the fixed-capacity `RingBuffer`;
* `src/state/store.ts` — `DashboardStore.updatePrice` and the rolling
  per-minute rate `updateSwapsPerMinute`;
* `src/data/streams/protocol.ts` — the frame-shape guards
  (`isWsX402Event`, `isWsStatusEvent`, `isWsEvent`, `isNetworkV2`);
* `src/data/streams/x402.ts` — `parseSchemaVersion`,
  `toCorePaymentRequired`, and the `StreamClient` watch-list operations
  (`addMints`/`removeMints`/`addAccounts`/`removeAccounts` with
  `normalizeList`/`mergeList`/`subtractList`), the constructor, lease-token
  handling (`setLeaseToken`) and the renewal dispatch `handleX402`;
* `src/app.ts` — `DashboardApp.handleX402Event` and `parsePriceHint`
  (the spend ledger).

JavaScript numbers appearing in control decisions are modelled as
rationals (every finite double is a rational); machine `Map`s and `Set`s
are modelled as association lists and insertion-ordered duplicate-free
lists, `BigInt` as `Int`, and thrown exceptions as `Except`.
-/

/-! ## JavaScript numbers (only where finiteness matters)

`RingBuffer`'s constructor branches on `Number.isFinite`; a JS number is
either NaN, one of the two infinities, or a finite double (a rational).
-/

inductive JsNum where
  | nan
  | posInf
  | negInf
  | val (q : ℚ)
deriving DecidableEq

/-- Models `Number.isFinite`. -/
def JsNum.isFinite : JsNum → Bool
  | .val _ => true
  | _ => false

/-- Models the JS comparison `capacity <= 0` (false on NaN, false on
`Infinity`, true on `-Infinity`). -/
def JsNum.leZero : JsNum → Bool
  | .val q => decide (q ≤ 0)
  | .negInf => true
  | _ => false

/-! ## RingBuffer (`src/state/buffers/ring-buffer.ts`)

The JS class holds `buffer` (an `Array<T | undefined>` of length
`capacity`, holes read as `undefined`), `head`, `tail`, `count`,
`capacity`.  An out-of-range JS array write (which only happens in the
degenerate `capacity = 0` case, where `% 0` produces `NaN` indices and
the element is never read back nor counted) is modelled by `List.set`
being a no-op out of range.
-/

structure RingBuffer (α : Type) where
  buffer : List (Option α)
  head : Nat
  tail : Nat
  count : Nat
  capacity : Nat
deriving DecidableEq

/-- The state produced by the constructor body after validation:
`this.capacity = Math.floor(capacity)` and `this.buffer = new
Array(this.capacity)` (all slots `undefined`). -/
def freshRing (α : Type) (cap : Nat) : RingBuffer α :=
  ⟨List.replicate cap none, 0, 0, 0, cap⟩

/-- Models the `RingBuffer` constructor: throws unless the requested
capacity is a finite number strictly greater than zero, then floors it. -/
def mkRingBuffer (α : Type) : JsNum → Except String (RingBuffer α)
  | .val q =>
    if q ≤ 0 then .error "RingBuffer capacity must be a positive number"
    else .ok (freshRing α (Int.toNat ⌊q⌋))
  | _ => .error "RingBuffer capacity must be a positive number"

/-- Models `RingBuffer.push`. -/
def RingBuffer.push (b : RingBuffer α) (x : α) : RingBuffer α :=
  let buf := b.buffer.set b.tail (some x)
  if b.count = b.capacity then
    ⟨buf, (b.head + 1) % b.capacity, (b.tail + 1) % b.capacity, b.count, b.capacity⟩
  else
    ⟨buf, b.head, (b.tail + 1) % b.capacity, b.count + 1, b.capacity⟩

/-- Models `RingBuffer.toArray` (and the structurally identical
iterator): walk `count` slots from `head`, skipping `undefined`. -/
def RingBuffer.toArray (b : RingBuffer α) : List α :=
  ((List.range b.count).map (fun i => b.buffer.getD ((b.head + i) % b.capacity) none)).filterMap id

/-- Models `RingBuffer.clear`. -/
def RingBuffer.clear (b : RingBuffer α) : RingBuffer α :=
  ⟨List.replicate b.capacity none, 0, 0, 0, b.capacity⟩

/-- Models the `length` getter. -/
def RingBuffer.length (b : RingBuffer α) : Nat := b.count

/-- Pushing a whole list, left to right. -/
def pushAll (b : RingBuffer α) (xs : List α) : RingBuffer α :=
  xs.foldl RingBuffer.push b

/-- Functional model of one push: keep the last `cap` items. -/
def modelPush (cap : Nat) (m : List α) (x : α) : List α :=
  if m.length = cap then m.drop 1 ++ [x] else m ++ [x]

/-- Coupling invariant between the imperative ring and the list of live
items it represents (in insertion order, oldest first). -/
def RingInv (b : RingBuffer α) (m : List α) : Prop :=
  b.buffer.length = b.capacity ∧
  b.head < b.capacity ∧
  b.count = m.length ∧
  m.length ≤ b.capacity ∧
  b.tail = (b.head + b.count) % b.capacity ∧
  ∀ i : Nat, (h : i < m.length) → b.buffer.getD ((b.head + i) % b.capacity) none = some (m.get ⟨i, h⟩)

/-! ## Association-list model of JS `Map`

`Map.get` finds the (unique) entry for a key; `Map.set` replaces it in
place or appends; `Map.delete` removes it.  Uniqueness of keys (always
true of a JS `Map`) appears as a `Nodup` hypothesis where it is needed.
-/

def mapGet {β : Type} (m : List (String × β)) (k : String) : Option β :=
  (m.find? (fun p => p.1 = k)).map (·.2)

def mapSet {β : Type} : List (String × β) → String → β → List (String × β)
  | [], k, v => [(k, v)]
  | (k₀, v₀) :: rest, k, v =>
    if k₀ = k then (k, v) :: rest else (k₀, v₀) :: mapSet rest k v

def mapDelete {β : Type} : List (String × β) → String → List (String × β)
  | [], _ => []
  | (k₀, v₀) :: rest, k =>
    if k₀ = k then rest else (k₀, v₀) :: mapDelete rest k

def mapHas {β : Type} (m : List (String × β)) (k : String) : Bool :=
  (mapGet m k).isSome

/-! ## DashboardStore price updates (`src/state/store.ts`)

`PriceData` is the shape stored in the `prices` map; `price` is a JS
number modelled as a rational. -/

structure PriceData where
  pairKey : String
  pairLabel : String
  price : ℚ
  dex : String
  slot : ℤ
  changePct : Option ℚ
deriving DecidableEq

/-- Models `DashboardStore.updatePrice` restricted to the `prices` map
(the price-history ring push and the emit are not observed by any
claim): look up the previous entry for the pair, derive `changePct`
against it when it exists and its price is positive, then overwrite. -/
def updatePrice (prices : List (String × PriceData)) (data : PriceData) :
    List (String × PriceData) :=
  let previous := mapGet prices data.pairKey
  let changePct : Option ℚ :=
    match previous with
    | some prev => if prev.price > 0 then some ((data.price - prev.price) / prev.price * 100) else none
    | none => none
  mapSet prices data.pairKey { data with changePct := changePct }

/-- Models the body of `DashboardStore.updateSwapsPerMinute` (and the
identical `updateAlertsPerMinute`): count the recorded timestamps newer
than `now - 60000` milliseconds.  Timestamps are `Date.now()` values,
modelled as integers. -/
def updateSwapsPerMinute (swapTimestamps : RingBuffer ℤ) (now : ℤ) : Nat :=
  ((swapTimestamps.toArray).filter (fun t => decide (now - 60000 < t))).length

/-! ## Decoded JSON frames and the protocol guards
(`src/data/streams/protocol.ts`)

`JsVal` is the result of a successful `JSON.parse`. -/

inductive JsVal where
  | nullV
  | boolV (b : Bool)
  | numV (q : ℚ)
  | strV (s : String)
  | arrV (items : List JsVal)
  | objV (fields : List (String × JsVal))

/-- Field access on a decoded object; `none` models `undefined` (missing
key, or any access on a non-object). -/
def getField : JsVal → String → Option JsVal
  | .objV fields, k => (fields.find? (fun p => p.1 = k)).map (·.2)
  | _, _ => none

/-- Models `isRecord`: a non-null non-array object. -/
def isRecordJ : JsVal → Bool
  | .objV _ => true
  | _ => false

def wsX402Ops : List String :=
  ["hello", "renewal_reminder", "payment_required", "renewed", "error"]

/-- Models `isWsX402Event`: a record whose `op` is one of the five
lease-control opcodes. -/
def isWsX402EventJ (v : JsVal) : Bool :=
  isRecordJ v &&
    (match getField v "op" with
     | some (.strV s) => decide (s ∈ wsX402Ops)
     | _ => false)

/-- Models `isWsStatusEvent`: a record with `type === "status"` and a
string `now`. -/
def isWsStatusEventJ (v : JsVal) : Bool :=
  isRecordJ v &&
    (match getField v "type" with
     | some (.strV s) => decide (s = "status")
     | _ => false) &&
    (match getField v "now" with
     | some (.strV _) => true
     | _ => false)

/-- Models `isWsEvent`: a record with a string `type`. -/
def isWsEventJ (v : JsVal) : Bool :=
  isRecordJ v &&
    (match getField v "type" with
     | some (.strV _) => true
     | _ => false)

/-- The emission channels of the `StreamClient` message handler.
`errorChan` stands for the `error` emitter channel; the handler itself
never emits on it (socket errors are emitted elsewhere). -/
inductive DispatchTarget where
  | x402Chan
  | statusChan
  | eventChan
  | errorChan
deriving DecidableEq

/-- Models the classification performed by the `ws.on("message")`
handler in `StreamClient.connect` on a successfully decoded frame: an
x402 frame is emitted on the `x402` channel and the handler returns;
otherwise the frame is emitted on `status` if it matches the status
shape (no early return in the source) and on `event` if it has a string
`type`. -/
def dispatchFrame (v : JsVal) : List DispatchTarget :=
  if isWsX402EventJ v then [.x402Chan]
  else
    (if isWsStatusEventJ v then [.statusChan] else []) ++
      (if isWsEventJ v then [.eventChan] else [])

/-! ## Composite network identifiers and payment normalization
(`src/data/streams/protocol.ts`, `src/data/streams/x402.ts`) -/

/-- Models `isNetworkV2`: `value.indexOf(":")` must be strictly positive
and strictly before the last character.  `List.findIdx` returns the
length when no colon occurs, in which case `idx + 1 < length` is false,
matching the JS `-1` case. -/
def isNetworkV2 (s : String) : Bool :=
  let l := s.toList
  let idx := l.findIdx (fun c => c = ':')
  decide (0 < idx) && decide (idx + 1 < l.length)

structure ResourceInfo where
  url : String
  description : String
  mimeType : String
deriving DecidableEq

structure PaymentRequirementsV2 where
  scheme : String
  network : String
  amount : String
  asset : String
  payTo : String
  maxTimeoutSeconds : ℚ
deriving DecidableEq

structure PaymentRequiredV2 where
  x402Version : ℤ
  resource : ResourceInfo
  accepts : List PaymentRequirementsV2
  error : Option String
deriving DecidableEq

/-- The `accepts.map` inside `toCorePaymentRequired`: throws at the
first requirement whose network is not a valid composite identifier. -/
def mapAcceptsV2 : List PaymentRequirementsV2 → Except String (List PaymentRequirementsV2)
  | [] => .ok []
  | r :: rest =>
    if isNetworkV2 r.network then
      match mapAcceptsV2 rest with
      | .ok rs => .ok (r :: rs)
      | .error e => .error e
    else .error ("invalid payment network: " ++ r.network)

/-- Models `toCorePaymentRequired` on a version-2 `PaymentRequired`
set. -/
def toCorePaymentRequired (v : PaymentRequiredV2) : Except String PaymentRequiredV2 :=
  match mapAcceptsV2 v.accepts with
  | .ok accepts => .ok { v with accepts := accepts }
  | .error e => .error e

/-! ## StreamClient (`src/data/streams/x402.ts`)

The JS string builtins used by the client (`startsWith`, `trim`,
`split`) are given structurally recursive models over the character
list, so that concrete witnesses evaluate inside the kernel. -/

/-- One character list is an initial segment of another. -/
def charsInitSeg : List Char → List Char → Bool
  | [], _ => true
  | _ :: _, [] => false
  | c :: cs, d :: ds => c = d && charsInitSeg cs ds

/-- Models `String.prototype.startsWith`. -/
def strStartsWith (s pre : String) : Bool :=
  charsInitSeg pre.toList s.toList

/-- Pathname of an `http(s)` URL: everything from the first `/` after
the authority up to a query or fragment.  Models `new URL(s).pathname`
for well-formed http(s) URLs (the only inputs `parseSchemaVersion`
routes through it). -/
def urlPathname (s : String) : String :=
  let rest :=
    if strStartsWith s "http://" then String.mk (s.toList.drop 7)
    else if strStartsWith s "https://" then String.mk (s.toList.drop 8)
    else s
  let path := (rest.toList.dropWhile (fun c => decide (c ≠ '/'))).takeWhile
    (fun c => decide (c ≠ '?') && decide (c ≠ '#'))
  if path = [] then "/" else String.mk path

/-- Scheme and authority of an `http(s)` URL, used when resolving an
absolute path against a base (`new URL(path, base)`). -/
def urlOrigin (s : String) : String :=
  if strStartsWith s "http://" then
    "http://" ++ String.mk ((s.toList.drop 7).takeWhile (fun c => decide (c ≠ '/')))
  else if strStartsWith s "https://" then
    "https://" ++ String.mk ((s.toList.drop 8).takeWhile (fun c => decide (c ≠ '/')))
  else s

/-- Models `parseSchemaVersion`: take the pathname when the input is an
absolute URL, then match the regex `^\/(v1|v2)\//`, defaulting to
`"v1"`. -/
def parseSchemaVersion (schemaPath : String) : String :=
  let rawPath :=
    if ¬ strStartsWith schemaPath "http://" = true ∧ ¬ strStartsWith schemaPath "https://" = true
    then schemaPath
    else urlPathname schemaPath
  if strStartsWith rawPath "/v1/" then "v1"
  else if strStartsWith rawPath "/v2/" then "v2"
  else "v1"

/-- Models `buildRenewUrl`: `new URL("/" + version + "/renew/stream/" +
streamId, httpBase)`. -/
def buildRenewUrl (httpBase streamId version : String) : String :=
  urlOrigin httpBase ++ "/" ++ version ++ "/renew/stream/" ++ streamId

/-- Models `String.prototype.trim`: strip leading and trailing
whitespace. -/
def jsTrim (s : String) : String :=
  String.mk (((s.toList.dropWhile Char.isWhitespace).reverse.dropWhile
    Char.isWhitespace).reverse)

/-- Models `normalizeList`: trim every entry, drop the empty ones
(`filter(Boolean)`). -/
def normalizeList (values : List String) : List String :=
  (values.map jsTrim).filter (fun s => decide (s ≠ ""))

/-- Inserting into a JS `Set` (insertion order, no duplicates). -/
def jsSetAdd (l : List String) (x : String) : List String :=
  if x ∈ l then l else l ++ [x]

/-- Models `new Set(list)` followed by `Array.from`: the list with later
duplicates removed. -/
def jsSetOf (l : List String) : List String :=
  l.foldl jsSetAdd []

/-- One iteration of the `mergeList` loop: skip values already present,
otherwise add to the set and to `added`. -/
def mergeStep (acc : List String × List String) (v : String) : List String × List String :=
  if v ∈ acc.1 then acc else (acc.1 ++ [v], acc.2 ++ [v])

/-- Models `StreamClient.mergeList`: returns `(next, added)`. -/
def mergeList (current : Option (List String)) (incoming : List String) :
    List String × List String :=
  incoming.foldl mergeStep (jsSetOf (current.getD []), [])

/-- One iteration of the `subtractList` loop: `Set.delete` returns true
exactly when the value was present, in which case it is recorded in
`removed`. -/
def subStep (acc : List String × List String) (v : String) : List String × List String :=
  if v ∈ acc.1 then (acc.1.filter (fun w => decide (w ≠ v)), acc.2 ++ [v]) else acc

/-- Models `StreamClient.subtractList`: returns `(next, removed)`. -/
def subtractList (current : Option (List String)) (incoming : List String) :
    List String × List String :=
  incoming.foldl subStep (jsSetOf (current.getD []), [])

/-- Outbound wire messages (`ClientMsg` in `stream.types.ts`),
restricted to the constructors the embedded methods produce.  The
`renew_inband` payload (requirement and signed payload) is not needed by
any claim and is elided. -/
inductive ClientMsg where
  | setOptions
  | setAccounts (accounts : List String)
  | setPrograms (programs : List String)
  | setMints (mints : List String)
  | addMintsMsg (mints : List String)
  | removeMintsMsg (mints : List String)
  | addAccountsMsg (accounts : List String)
  | removeAccountsMsg (accounts : List String)
  | getState
  | renewToken (token : String)
  | renewInband
deriving DecidableEq

inductive RenewMethod where
  | http
  | inband
deriving DecidableEq

structure StreamClientConfig where
  httpBase : String
  schemaPath : String
  renewMethod : RenewMethod
  streamId : String
  watchAccounts : Option (List String) := none
  watchPrograms : Option (List String) := none
  watchMints : Option (List String) := none
deriving DecidableEq

/-- The mutable fields of a `StreamClient` that the claims observe (the
socket handle itself is not modelled; `send` on a closed socket simply
drops the message downstream of everything proved here). -/
structure ClientState where
  config : StreamClientConfig
  currentToken : Option String := none
  renewUrl : Option String := none
  schemaVersion : String
deriving DecidableEq

/-- Observable actions of a client state transition: emitter events and
outbound I/O.  `httpRenewRequest`/`inbandChallengeRequest` carry the
token the renewal call is signed with. -/
inductive Effect where
  | emitLease (token : String)
  | emitError (message : String)
  | sendMsg (m : ClientMsg)
  | httpRenewRequest (url : String) (token : String)
  | inbandChallengeRequest (url : String) (token : String)
deriving DecidableEq

/-- Models the `StreamClient` constructor: it stores the config and
derives the schema version; every callee is total, so construction
always succeeds and performs no emission. -/
def mkStreamClient (config : StreamClientConfig) : ClientState × List Effect :=
  ({ config := config, schemaVersion := parseSchemaVersion config.schemaPath }, [])

/-- A lease-control frame as consumed by `handleX402` (client side) and
`handleX402Event` (app side): the opcode and the optional price hints of
`event.renew?.http`/`event.renew?.inband`. -/
structure WsX402Ev where
  op : String
  renewHttpPriceHint : Option String := none
  renewInbandPriceHint : Option String := none
deriving DecidableEq

/-- Models `StreamClient.addMints`. -/
def StreamClient.addMints (st : ClientState) (mints : List String) :
    ClientState × Option ClientMsg :=
  let normalized := normalizeList mints
  if normalized = [] then (st, none)
  else
    let r := mergeList st.config.watchMints normalized
    if r.2 = [] then (st, none)
    else ({ st with config := { st.config with watchMints := some r.1 } },
      some (.addMintsMsg r.2))

/-- Models `StreamClient.removeMints`. -/
def StreamClient.removeMints (st : ClientState) (mints : List String) :
    ClientState × Option ClientMsg :=
  let normalized := normalizeList mints
  if normalized = [] then (st, none)
  else
    let r := subtractList st.config.watchMints normalized
    if r.2 = [] then (st, none)
    else ({ st with config := { st.config with watchMints := some r.1 } },
      some (.removeMintsMsg r.2))

/-- Models `StreamClient.addAccounts`. -/
def StreamClient.addAccounts (st : ClientState) (accounts : List String) :
    ClientState × Option ClientMsg :=
  let normalized := normalizeList accounts
  if normalized = [] then (st, none)
  else
    let r := mergeList st.config.watchAccounts normalized
    if r.2 = [] then (st, none)
    else ({ st with config := { st.config with watchAccounts := some r.1 } },
      some (.addAccountsMsg r.2))

/-- Models `StreamClient.removeAccounts`. -/
def StreamClient.removeAccounts (st : ClientState) (accounts : List String) :
    ClientState × Option ClientMsg :=
  let normalized := normalizeList accounts
  if normalized = [] then (st, none)
  else
    let r := subtractList st.config.watchAccounts normalized
    if r.2 = [] then (st, none)
    else ({ st with config := { st.config with watchAccounts := some r.1 } },
      some (.removeAccountsMsg r.2))

/-- Models `StreamClient.handleX402` up to its first suspension point:
the guards, the branch on the renewal strategy, and the renewal request
that is issued (carrying the token read from `this.currentToken` at that
moment).  The inband-against-v1 configuration error is emitted here, at
renewal time. -/
def handleX402Init (st : ClientState) (e : WsX402Ev) : ClientState × List Effect :=
  match st.renewUrl, st.currentToken with
  | some renewUrl, some token =>
    if e.op = "renewal_reminder" ∨ e.op = "payment_required" then
      if st.config.renewMethod = .http then (st, [.httpRenewRequest renewUrl token])
      else if st.schemaVersion ≠ "v2" then
        (st, [.emitError "inband renewal requires v2 schema"])
      else (st, [.inbandChallengeRequest renewUrl token])
    else (st, [])
  | _, _ => (st, [])

/-- Models the continuation of the http renewal after `renewHttp`
resolves: `setLeaseToken` (which emits `lease`) followed by the
`renew_token` control message. -/
def completeHttpRenew (st : ClientState) (newToken : String) : ClientState × List Effect :=
  ({ st with currentToken := some newToken },
    [.emitLease newToken, .sendMsg (.renewToken newToken)])

/-- The atomic steps of a `StreamClient` session, at the suspension
points of the source: connecting (which stores the initial token via
`setLeaseToken` and computes the renewal URL), delivery of a
lease-control frame, and the success/failure continuations of an
in-flight renewal.  Completions may interleave arbitrarily with later
deliveries, over-approximating the cooperative scheduler. -/
inductive SessAction where
  | connectOk (token : String)
  | deliverX402 (e : WsX402Ev)
  | httpRenewOk (newToken : String)
  | inbandRenewOk
  | renewFail (message : String)

/-- One transition of the session model, with its observable effects. -/
def sessStep (st : ClientState) (a : SessAction) : ClientState × List Effect :=
  match a with
  | .connectOk token =>
    ({ st with
        currentToken := some token
        renewUrl := some (buildRenewUrl st.config.httpBase st.config.streamId st.schemaVersion) },
      [.emitLease token])
  | .deliverX402 e => handleX402Init st e
  | .httpRenewOk newToken => completeHttpRenew st newToken
  | .inbandRenewOk => (st, [.sendMsg .renewInband])
  | .renewFail message => (st, [.emitError message])

/-- Running a list of session actions from a state. -/
def sessRun (st : ClientState) (acts : List SessAction) : ClientState :=
  acts.foldl (fun s a => (sessStep s a).1) st

/-- A token is current when it is the one stored in `currentToken`. -/
def isCurrent (st : ClientState) (t : String) : Prop :=
  st.currentToken = some t

/-- The tokens carried by the renewal requests among a step's effects. -/
def renewRequestTokens (effects : List Effect) : List String :=
  effects.filterMap (fun e =>
    match e with
    | .httpRenewRequest _ token => some token
    | .inbandChallengeRequest _ token => some token
    | _ => none)

/-! ## SpendLedger (`src/app.ts`) -/

/-- Decimal digits of a numeric literal, most significant first. -/
def digitsVal (l : List Char) : ℤ :=
  l.foldl (fun acc c => acc * 10 + (Int.ofNat (c.toNat - '0'.toNat))) 0

/-- An unsigned decimal literal: nonempty, all digits. -/
def parseDigits (l : List Char) : Option ℤ :=
  if l ≠ [] ∧ l.all Char.isDigit then some (digitsVal l) else none

/-- Models the JS `BigInt(string)` conversion on the strings
`parsePriceHint` feeds it (whitespace-free, since the hint was split on
whitespace), restricted to optionally-signed decimal literals; the hex,
octal and binary prefix forms also accepted by `BigInt` are not
modelled.  `none` models the thrown `SyntaxError`. -/
def parseJsBigInt (s : String) : Option ℤ :=
  match s.toList with
  | [] => some 0
  | '+' :: rest => parseDigits rest
  | '-' :: rest => (parseDigits rest).map (fun n => -n)
  | l => parseDigits l

structure X402PriceHint where
  amountRaw : ℤ
  asset : String
deriving DecidableEq

/-- Splitting a character list at every occurrence of a separator,
keeping empty segments; models `String.prototype.split` with a
one-character separator. -/
def splitOnChar (sep : Char) (l : List Char) : List (List Char) :=
  l.foldr (fun c acc =>
    match acc with
    | [] => [[c]]
    | t :: ts => if c = sep then [] :: t :: ts else (c :: t) :: ts) [[]]

/-- The maximal whitespace-separated segments of a character list
(empty segments included); `trim().split(/\s+/)` of the source is this
followed by dropping the empty segments, which the caller's guard on
empty keys and values makes observationally identical. -/
def splitWs (l : List Char) : List (List Char) :=
  l.foldr (fun c acc =>
    match acc with
    | [] => [[c]]
    | t :: ts => if c.isWhitespace then [] :: t :: ts else (c :: t) :: ts) [[]]

/-- One step of the `parsePriceHint` loop over `key=value` parts. -/
def priceHintStep (acc : Option String × Option String) (part : String) :
    Option String × Option String :=
  let pieces := (splitOnChar '=' part.toList).map String.mk
  let key := pieces.getD 0 ""
  let value := pieces.getD 1 ""
  if key = "" ∨ value = "" then acc
  else if key = "amount" ∨ key = "maxAmount" then (some value, acc.2)
  else if key = "asset" then (acc.1, some value)
  else acc

/-- Models `DashboardApp.parsePriceHint`: split the hint on whitespace,
scan `key=value` parts for `amount`/`maxAmount` and `asset`, and convert
the amount with `BigInt` (a conversion failure yields `null`). -/
def parsePriceHint (hint : String) : Option X402PriceHint :=
  let parts := ((splitWs hint.toList).map String.mk).filter (fun s => decide (s ≠ ""))
  let scanned := parts.foldl priceHintStep (none, none)
  match scanned.1, scanned.2 with
  | some amount, some asset => (parseJsBigInt amount).map (fun n => ⟨n, asset⟩)
  | _, _ => none

structure SpendEntry where
  totalRaw : ℤ
  asset : String
deriving DecidableEq

/-- The spend-ledger state of `DashboardApp`: the per-stream pending
charge map and the per-stream confirmed totals. -/
structure SpendState where
  pendingCharges : List (String × X402PriceHint)
  spendTotals : List (String × SpendEntry)
deriving DecidableEq

/-- Models `DashboardApp.handleX402Event` restricted to the ledger
state (`updateSpendPanel` and `updateStreamState` only repaint UI): a
reminder or payment-required frame whose hint parses records a pending
charge (and seeds a zero total if the stream has none); a `renewed`
frame folds the pending charge, if any, into the confirmed total. -/
def handleX402Event (st : SpendState) (streamId : String) (e : WsX402Ev) : SpendState :=
  if e.op = "renewal_reminder" ∨ e.op = "payment_required" then
    match e.renewHttpPriceHint <|> e.renewInbandPriceHint with
    | some hint =>
      match parsePriceHint hint with
      | some parsed =>
        { pendingCharges := mapSet st.pendingCharges streamId parsed
          spendTotals :=
            if mapHas st.spendTotals streamId then st.spendTotals
            else mapSet st.spendTotals streamId ⟨0, parsed.asset⟩ }
      | none => st
    | none => st
  else if e.op = "renewed" then
    match mapGet st.pendingCharges streamId with
    | none => st
    | some pending =>
      let current := (mapGet st.spendTotals streamId).getD ⟨0, pending.asset⟩
      { pendingCharges := mapDelete st.pendingCharges streamId
        spendTotals := mapSet st.spendTotals streamId
          ⟨current.totalRaw + pending.amountRaw, pending.asset⟩ }
  else st

/-- The confirmed spend total (raw units) recorded for a stream; absent
streams read as zero. -/
def confirmedRaw (st : SpendState) (streamId : String) : ℤ :=
  ((mapGet st.spendTotals streamId).map SpendEntry.totalRaw).getD 0

/-- A sample client state used by concrete witnesses. -/
def wSampleClient : ClientState :=
  { config :=
      { httpBase := "http://localhost:3000"
        schemaPath := "/v2/schema/stream/token-ticker"
        renewMethod := RenewMethod.http
        streamId := "token-ticker"
        watchAccounts := some ["acc1"]
        watchPrograms := none
        watchMints := some ["m1"] }
    currentToken := none
    renewUrl := none
    schemaVersion := "v2" }

/-- A sample renewal-reminder frame carrying a price hint. -/
def wReminderEv : WsX402Ev :=
  { op := "renewal_reminder"
    renewHttpPriceHint := some "amount=500 asset=X"
    renewInbandPriceHint := some "amount=500 asset=X" }

/-- A sample renewed-confirmation frame. -/
def wRenewedEv : WsX402Ev :=
  { op := "renewed" }

/-- A config requesting in-band renewal against a version-1 schema. -/
def wV1InbandConfig : StreamClientConfig :=
  { httpBase := "http://localhost:3000"
    schemaPath := "/v1/schema/stream/token-ticker"
    renewMethod := RenewMethod.inband
    streamId := "token-ticker" }

/-- The session built from `wV1InbandConfig` after a successful
connect. -/
def wV1InbandConnected : ClientState :=
  (sessStep (mkStreamClient wV1InbandConfig).1 (.connectOk "tok0")).1

/-! ## Lemmas about the RingBuffer embedding -/

theorem listGetD_set_ne {β : Type} (l : List β) (i j : Nat) (x d : β) (h : i ≠ j) :
    (l.set i x).getD j d = l.getD j d := by
  simp [List.getD_eq_getElem?_getD, List.getElem?_set_ne h]

theorem listGetD_set_self {β : Type} (l : List β) (i : Nat) (x d : β) (h : i < l.length) :
    (l.set i x).getD i d = x := by
  simp [List.getD_eq_getElem?_getD, List.getElem?_set_self h]

theorem mod_add_cancel {cap a i j : Nat} (hi : i < cap) (hj : j < cap)
    (h : (a + i) % cap = (a + j) % cap) : i = j := by
  have h2 : i ≡ j [MOD cap] := Nat.ModEq.add_left_cancel' a h
  have h3 : i % cap = j % cap := h2
  rwa [Nat.mod_eq_of_lt hi, Nat.mod_eq_of_lt hj] at h3

theorem push_capacity {α : Type} (b : RingBuffer α) (x : α) :
    (b.push x).capacity = b.capacity := by
  unfold RingBuffer.push
  split <;> rfl

theorem push_count_le {α : Type} (b : RingBuffer α) (x : α) (h : b.count ≤ b.capacity) :
    (b.push x).count ≤ b.capacity := by
  unfold RingBuffer.push
  split
  · exact h
  · show b.count + 1 ≤ b.capacity
    omega

theorem ringInv_fresh (α : Type) (cap : Nat) (hcap : 0 < cap) :
    RingInv (freshRing α cap) [] := by
  refine ⟨by simp [freshRing], hcap, rfl, by simp, ?_, ?_⟩
  · simp [freshRing]
  · intro i h
    simp at h

theorem ringInv_push {α : Type} {b : RingBuffer α} {m : List α} (hb : RingInv b m) (x : α) :
    RingInv (b.push x) (modelPush b.capacity m x) := by
  obtain ⟨hlen, hhead, hcount, hle, htail, hget⟩ := hb
  have hcap : 0 < b.capacity := Nat.lt_of_le_of_lt (Nat.zero_le _) hhead
  by_cases hfull : b.count = b.capacity
  · have hm : m.length = b.capacity := hcount ▸ hfull
    have htl : b.tail = b.head := by
      rw [htail, hfull, Nat.add_mod_right, Nat.mod_eq_of_lt hhead]
    have hm1 : (m.drop 1).length = b.capacity - 1 := by simp [hm]
    have hmne : m.length ≠ 0 := by omega
    unfold RingBuffer.push modelPush
    rw [if_pos hfull, if_pos hm]
    refine ⟨by simp [hlen], Nat.mod_lt _ hcap, ?_, ?_, ?_, ?_⟩
    · simp [hfull, hm1]; omega
    · simp [hm1]; omega
    · show (b.tail + 1) % b.capacity = ((b.head + 1) % b.capacity + b.count) % b.capacity
      rw [htl, Nat.mod_add_mod, hfull, Nat.add_mod_right]
    · intro i hi
      simp only [hm1, List.length_append, List.length_singleton] at hi
      have hicap : i < b.capacity := by omega
      show (b.buffer.set b.tail (some x)).getD (((b.head + 1) % b.capacity + i) % b.capacity) none = _
      rw [Nat.mod_add_mod]
      by_cases hlast : i = b.capacity - 1
      · have hpos : (b.head + 1 + i) % b.capacity = b.head := by
          have : b.head + 1 + i = b.head + b.capacity := by omega
          rw [this, Nat.add_mod_right, Nat.mod_eq_of_lt hhead]
        rw [hpos, ← htl, listGetD_set_self _ _ _ _ (by rw [hlen, htl]; exact hhead)]
        have hidx : i = (m.drop 1).length := by omega
        simp only [List.get_eq_getElem]
        rw [List.getElem_concat_length (m.drop 1) x i hidx]
      · have hne : (b.head + 1 + i) % b.capacity ≠ b.tail := by
          rw [htl]
          intro hcontra
          have hh : (b.head + (1 + i)) % b.capacity = (b.head + 0) % b.capacity := by
            rw [← Nat.add_assoc, hcontra, Nat.add_zero, Nat.mod_eq_of_lt hhead]
          have : 1 + i = 0 := mod_add_cancel (by omega) hcap hh
          omega
        rw [listGetD_set_ne _ _ _ _ _ (fun hcontra => hne hcontra.symm)]
        have hi1 : 1 + i < m.length := by omega
        have := hget (1 + i) hi1
        rw [← Nat.add_assoc] at this
        rw [this]
        have hidrop : i < (m.drop 1).length := by omega
        simp only [List.get_eq_getElem]
        rw [List.getElem_append_left hidrop]
        simp [List.getElem_drop, Nat.add_comm]
  · have hm : m.length ≠ b.capacity := fun hc => hfull (hcount ▸ hc)
    have hlt : b.count < b.capacity := Nat.lt_of_le_of_ne (hcount ▸ hle) hfull
    unfold RingBuffer.push modelPush
    rw [if_neg hfull, if_neg hm]
    refine ⟨by simp [hlen], hhead, by simp [hcount], by simp; omega, ?_, ?_⟩
    · show (b.tail + 1) % b.capacity = (b.head + (b.count + 1)) % b.capacity
      rw [htail, Nat.mod_add_mod, Nat.add_assoc]
    · intro i hi
      simp only [List.length_append, List.length_singleton] at hi
      show (b.buffer.set b.tail (some x)).getD ((b.head + i) % b.capacity) none = _
      by_cases hlast : i = m.length
      · have hpos : (b.head + i) % b.capacity = b.tail := by rw [htail, hlast, hcount]
        rw [hpos, listGetD_set_self _ _ _ _ (by rw [hlen, htail]; exact Nat.mod_lt _ hcap)]
        have := List.getElem_concat_length m x i hlast (by simp; omega)
        simp [List.get_eq_getElem, this]
      · have hilt : i < m.length := by omega
        have hne : (b.head + i) % b.capacity ≠ b.tail := by
          rw [htail, hcount]
          intro hcontra
          exact hlast (mod_add_cancel (by omega) (by omega) hcontra)
        rw [listGetD_set_ne _ _ _ _ _ (fun hcontra => hne hcontra.symm)]
        rw [hget i hilt]
        simp only [List.get_eq_getElem]
        rw [List.getElem_append_left hilt]

theorem ringInv_toArray {α : Type} {b : RingBuffer α} {m : List α} (hb : RingInv b m) :
    b.toArray = m := by
  obtain ⟨hlen, hhead, hcount, hle, htail, hget⟩ := hb
  unfold RingBuffer.toArray
  have hmap : (List.range b.count).map
      (fun i => b.buffer.getD ((b.head + i) % b.capacity) none) = m.map some := by
    apply List.ext_getElem
    · simp [hcount]
    · intro i h1 h2
      simp only [List.getElem_map, List.getElem_range]
      simp only [List.length_map] at h2
      have := hget i h2
      simpa [List.get_eq_getElem] using this
  rw [hmap, List.filterMap_map]
  have : (some : α → Option α) = fun a => id (some a) := rfl
  simp [List.filterMap_some]

theorem pushAll_inv {α : Type} {b : RingBuffer α} {m : List α} (hb : RingInv b m)
    (xs : List α) :
    RingInv (pushAll b xs) (xs.foldl (modelPush b.capacity) m) := by
  induction xs generalizing b m with
  | nil => exact hb
  | cons x xs ih =>
    have hstep := ringInv_push hb x
    have hcap : (b.push x).capacity = b.capacity := push_capacity b x
    have := ih hstep
    rw [hcap] at this
    simpa [pushAll, List.foldl_cons] using this

theorem pushAll_capacity {α : Type} (b : RingBuffer α) (xs : List α) :
    (pushAll b xs).capacity = b.capacity := by
  induction xs generalizing b with
  | nil => rfl
  | cons x xs ih =>
    simpa [pushAll, List.foldl_cons, push_capacity] using ih (b.push x)

theorem pushAll_count_le {α : Type} (b : RingBuffer α) (xs : List α)
    (h : b.count ≤ b.capacity) : (pushAll b xs).count ≤ (pushAll b xs).capacity := by
  induction xs generalizing b with
  | nil => exact h
  | cons x xs ih =>
    have h1 : (b.push x).count ≤ (b.push x).capacity := by
      rw [push_capacity]
      exact push_count_le b x h
    simpa [pushAll, List.foldl_cons] using ih (b.push x) h1

theorem foldl_modelPush {α : Type} {cap : Nat} (hcap : 0 < cap) :
    ∀ (xs m : List α), m.length ≤ cap →
      xs.foldl (modelPush cap) m = (m ++ xs).drop (m.length + xs.length - cap) := by
  intro xs
  induction xs with
  | nil =>
    intro m hm
    simp [Nat.sub_eq_zero_of_le hm]
  | cons x xs ih =>
    intro m hm
    rw [List.foldl_cons]
    by_cases hfull : m.length = cap
    · have hne : m ≠ [] := by
        intro hc
        rw [hc] at hfull
        simp at hfull
        omega
      have hlen2 : (modelPush cap m x).length = cap := by
        simp [modelPush, hfull]
        omega
      rw [ih (modelPush cap m x) (le_of_eq hlen2)]
      rw [hlen2]
      simp only [modelPush, if_pos hfull]
      have htake : m.take 1 ++ m.drop 1 = m := List.take_append_drop 1 m
      have htakelen : (m.take 1).length = 1 := by
        simp [List.length_take]
        omega
      have hsplit : m ++ x :: xs = m.take 1 ++ ((m.drop 1 ++ [x]) ++ xs) := by
        conv_lhs => rw [← htake]
        simp
      rw [hsplit]
      have hidx : m.length + (x :: xs).length - cap = (m.take 1).length + (cap + xs.length - cap) := by
        simp [htakelen, hfull]
        omega
      rw [hidx, List.drop_append]
    · have hlt : m.length < cap := Nat.lt_of_le_of_ne hm hfull
      have hlen2 : (modelPush cap m x).length = m.length + 1 := by
        simp [modelPush, hfull]
      rw [ih (modelPush cap m x) (by omega)]
      rw [hlen2]
      simp only [modelPush, if_neg hfull]
      have : (m ++ [x]) ++ xs = m ++ x :: xs := by simp
      rw [this]
      congr 1
      simp
      omega

/-! ## Lemmas about the association-list Map model -/

theorem mapGet_cons {β : Type} (k₀ : String) (v₀ : β) (rest : List (String × β)) (k : String) :
    mapGet ((k₀, v₀) :: rest) k = if k₀ = k then some v₀ else mapGet rest k := by
  by_cases h : k₀ = k <;> simp [mapGet, List.find?, h]

theorem mapGet_mapSet_self {β : Type} (m : List (String × β)) (k : String) (v : β) :
    mapGet (mapSet m k v) k = some v := by
  induction m with
  | nil => simp [mapSet, mapGet_cons]
  | cons p rest ih =>
    obtain ⟨k₀, v₀⟩ := p
    unfold mapSet
    by_cases h : k₀ = k
    · simp [h, mapGet_cons]
    · simp [h, mapGet_cons, ih]

theorem mapGet_mapSet_ne {β : Type} (m : List (String × β)) (k k' : String) (v : β)
    (h : k' ≠ k) : mapGet (mapSet m k v) k' = mapGet m k' := by
  have hk : k ≠ k' := Ne.symm h
  induction m with
  | nil => simp [mapSet, mapGet_cons, hk, mapGet]
  | cons p rest ih =>
    obtain ⟨k₀, v₀⟩ := p
    unfold mapSet
    by_cases h₀ : k₀ = k
    · rw [if_pos h₀, mapGet_cons, mapGet_cons, if_neg hk, if_neg (h₀ ▸ hk)]
    · rw [if_neg h₀, mapGet_cons, mapGet_cons, ih]

theorem mapGet_none_of_not_mem {β : Type} (m : List (String × β)) (k : String)
    (h : k ∉ m.map Prod.fst) : mapGet m k = none := by
  induction m with
  | nil => simp [mapGet]
  | cons p rest ih =>
    obtain ⟨k₀, v₀⟩ := p
    simp only [List.map_cons, List.mem_cons] at h
    push_neg at h
    rw [mapGet_cons, if_neg (Ne.symm h.1)]
    exact ih h.2

theorem mapGet_mapDelete_self {β : Type} (m : List (String × β)) (k : String)
    (hnd : (m.map Prod.fst).Nodup) : mapGet (mapDelete m k) k = none := by
  induction m with
  | nil => simp [mapDelete, mapGet]
  | cons p rest ih =>
    obtain ⟨k₀, v₀⟩ := p
    simp only [List.map_cons, List.nodup_cons] at hnd
    unfold mapDelete
    by_cases h : k₀ = k
    · rw [if_pos h]
      exact mapGet_none_of_not_mem rest k (h ▸ hnd.1)
    · rw [if_neg h, mapGet_cons, if_neg h]
      exact ih hnd.2

theorem mapGet_mapDelete_ne {β : Type} (m : List (String × β)) (k k' : String)
    (h : k' ≠ k) : mapGet (mapDelete m k) k' = mapGet m k' := by
  induction m with
  | nil => simp [mapDelete]
  | cons p rest ih =>
    obtain ⟨k₀, v₀⟩ := p
    unfold mapDelete
    by_cases h₀ : k₀ = k
    · rw [if_pos h₀, mapGet_cons, if_neg (fun hc => h (hc.symm.trans h₀))]
    · rw [if_neg h₀, mapGet_cons, mapGet_cons, ih]

theorem mapSet_mem_keys {β : Type} (m : List (String × β)) (k v : _) (w : String)
    (hw : w ∈ (mapSet m k v).map Prod.fst) : w ∈ m.map Prod.fst ∨ w = k := by
  induction m with
  | nil => simpa [mapSet] using hw
  | cons p rest ih =>
    obtain ⟨k₀, v₀⟩ := p
    unfold mapSet at hw
    by_cases h : k₀ = k
    · rw [if_pos h] at hw
      simp only [List.map_cons, List.mem_cons] at hw ⊢
      rcases hw with h2 | h2
      · exact Or.inr h2
      · exact Or.inl (Or.inr h2)
    · rw [if_neg h] at hw
      simp only [List.map_cons, List.mem_cons] at hw ⊢
      rcases hw with h2 | h2
      · exact Or.inl (Or.inl h2)
      · rcases ih h2 with h3 | h3
        · exact Or.inl (Or.inr h3)
        · exact Or.inr h3

theorem mapSet_keys_nodup {β : Type} (m : List (String × β)) (k : String) (v : β)
    (hnd : (m.map Prod.fst).Nodup) : ((mapSet m k v).map Prod.fst).Nodup := by
  induction m with
  | nil => simp [mapSet]
  | cons p rest ih =>
    obtain ⟨k₀, v₀⟩ := p
    simp only [List.map_cons, List.nodup_cons] at hnd
    unfold mapSet
    by_cases h : k₀ = k
    · subst h
      simp only [if_true, List.map_cons, List.nodup_cons]
      exact hnd
    · simp only [if_neg h, List.map_cons, List.nodup_cons]
      refine ⟨?_, ih hnd.2⟩
      intro hc
      rcases mapSet_mem_keys rest k v k₀ hc with h2 | h2
      · exact hnd.1 h2
      · exact h h2

/-! ## Claim C3 -/

/-- C3: for every `RingBuffer` of capacity `N` and every sequence of
`N + 1` pushes of items `x_1 .. x_{N+1}`, `toArray()` afterwards returns
`[x_2, .., x_{N+1}]` — the oldest item is evicted and insertion order is
preserved — and after any sequence of pushes `length` never exceeds the
capacity. -/
theorem ringBuffer_eviction (α : Type) (N : Nat) (hN : 0 < N) (xs : List α)
    (hlen : xs.length = N + 1) :
    (pushAll (freshRing α N) xs).toArray = xs.drop 1 ∧
    ∀ ys : List α, (pushAll (freshRing α N) ys).length ≤ N := by
  constructor
  · have hinv := pushAll_inv (ringInv_fresh α N hN) xs
    have hcapf : (freshRing α N).capacity = N := rfl
    rw [hcapf] at hinv
    have hfold : xs.foldl (modelPush N) [] = xs.drop 1 := by
      rw [foldl_modelPush hN xs [] (by simp)]
      simp [hlen]
    rw [hfold] at hinv
    exact ringInv_toArray hinv
  · intro ys
    have h := pushAll_count_le (freshRing α N) ys (by simp [freshRing])
    rw [pushAll_capacity] at h
    simpa [RingBuffer.length, freshRing] using h

/-- Witness for C3 at capacity 2 and three pushes. -/
theorem ringBuffer_eviction_witness :
    (pushAll (freshRing Nat 2) [10, 20, 30]).toArray = [10, 20, 30].drop 1 ∧
    ∀ ys : List Nat, (pushAll (freshRing Nat 2) ys).length ≤ 2 :=
  ringBuffer_eviction Nat 2 (by decide) [10, 20, 30] (by decide)

/-! ## Claim C10 -/

/-- C10: constructing a `RingBuffer` with a capacity that is not finite
or is at most zero throws; for finite capacity `c > 0` the effective
capacity is `floor c`; and `push`/`clear` (the only state-changing
operations; `toArray` and iteration read without mutating) maintain
`length ≤ capacity` (the lower bound `0 ≤ length` is inherent in the
natural-number count). -/
theorem ringBuffer_capacity_validation (α : Type) :
    (∀ c : JsNum, (JsNum.isFinite c = false ∨ JsNum.leZero c = true) ↔
      mkRingBuffer α c = .error "RingBuffer capacity must be a positive number") ∧
    (∀ q : ℚ, 0 < q →
      mkRingBuffer α (.val q) = .ok (freshRing α (Int.toNat ⌊q⌋)) ∧
      (freshRing α (Int.toNat ⌊q⌋)).capacity = Int.toNat ⌊q⌋ ∧
      (freshRing α (Int.toNat ⌊q⌋)).length = 0) ∧
    (∀ (b : RingBuffer α) (x : α), b.length ≤ b.capacity →
      (b.push x).length ≤ b.capacity ∧ (b.push x).capacity = b.capacity) ∧
    (∀ b : RingBuffer α, b.clear.length = 0 ∧ b.clear.capacity = b.capacity) := by
  refine ⟨?_, ?_, ?_, ?_⟩
  · intro c
    cases c with
    | nan => simp [JsNum.isFinite, JsNum.leZero, mkRingBuffer]
    | posInf => simp [JsNum.isFinite, JsNum.leZero, mkRingBuffer]
    | negInf => simp [JsNum.isFinite, JsNum.leZero, mkRingBuffer]
    | val q =>
      simp only [JsNum.isFinite, JsNum.leZero, mkRingBuffer]
      by_cases h : q ≤ 0
      · simp [h]
      · simp [h]
  · intro q hq
    have h : ¬ q ≤ 0 := not_le.mpr hq
    refine ⟨by simp [mkRingBuffer, h], rfl, rfl⟩
  · intro b x h
    exact ⟨push_count_le b x h, push_capacity b x⟩
  · intro b
    exact ⟨rfl, rfl⟩

/-- Witness for C10: a NaN capacity is rejected, capacity 5/2 floors to
2, and a push at the bound keeps the length within it. -/
theorem ringBuffer_capacity_validation_witness :
    mkRingBuffer Nat .nan = .error "RingBuffer capacity must be a positive number" ∧
    mkRingBuffer Nat (.val (5 / 2)) = .ok (freshRing Nat (Int.toNat ⌊(5 / 2 : ℚ)⌋)) ∧
    ((freshRing Nat 3).push 7).length ≤ (freshRing Nat 3).capacity :=
  ⟨((ringBuffer_capacity_validation Nat).1 .nan).mp (Or.inl (by decide)),
   ((ringBuffer_capacity_validation Nat).2.1 (5 / 2) (by norm_num)).1,
   ((ringBuffer_capacity_validation Nat).2.2.1 (freshRing Nat 3) 7 (by decide)).1⟩

/-! ## Claim C7 -/

/-- C7: the rolling per-minute rate equals the number of recorded
timestamps strictly newer than `now` minus 60 seconds; with timestamps
`t` and `t + 30s` recorded, the rate evaluated at `t + 61s` counts
`t + 30s` but not `t`, so entries at or older than the window boundary
are excluded. -/
theorem rollingRate_window_boundary :
    (∀ (b : RingBuffer ℤ) (now : ℤ),
      updateSwapsPerMinute b now = b.toArray.countP (fun x => decide (now - 60000 < x))) ∧
    (∀ t : ℤ,
      (pushAll (freshRing ℤ 1000) [t, t + 30000]).toArray = [t, t + 30000] ∧
      ((pushAll (freshRing ℤ 1000) [t, t + 30000]).toArray).filter
          (fun x => decide (t + 61000 - 60000 < x)) = [t + 30000] ∧
      updateSwapsPerMinute (pushAll (freshRing ℤ 1000) [t, t + 30000]) (t + 61000) = 1) := by
  have harr : ∀ t : ℤ, (pushAll (freshRing ℤ 1000) [t, t + 30000]).toArray = [t, t + 30000] := by
    intro t
    have hinv := pushAll_inv (ringInv_fresh ℤ 1000 (by norm_num)) [t, t + 30000]
    have hcapf : (freshRing ℤ 1000).capacity = 1000 := rfl
    rw [hcapf] at hinv
    have hfold : List.foldl (modelPush 1000) ([] : List ℤ) [t, t + 30000] = [t, t + 30000] := by
      simp only [List.foldl_cons, List.foldl_nil]
      unfold modelPush
      norm_num
    rw [hfold] at hinv
    exact ringInv_toArray hinv
  have hfil : ∀ t : ℤ, ([t, t + 30000] : List ℤ).filter
      (fun x => decide (t + 61000 - 60000 < x)) = [t + 30000] := by
    intro t
    have h1 : decide (t + 61000 - 60000 < t) = false := by
      simp only [decide_eq_false_iff_not]
      omega
    have h2 : decide (t + 61000 - 60000 < t + 30000) = true := by
      simp only [decide_eq_true_eq]
      omega
    simp [List.filter, h1, h2]
  refine ⟨?_, ?_⟩
  · intro b now
    rw [updateSwapsPerMinute, List.countP_eq_length_filter]
  · intro t
    refine ⟨harr t, by rw [harr t]; exact hfil t, ?_⟩
    rw [updateSwapsPerMinute, harr t, hfil t]
    rfl

/-! ## Claim C6 -/

/-- C6: a price update stores `changePct = (new - old) / old * 100`
computed against the previous stored price for the pair before it is
overwritten when a previous price exists and is positive; when no
previous price exists, or the previous price is not positive (in
particular zero), the stored `changePct` is `undefined`. -/
theorem store_updatePrice_changePct (prices : List (String × PriceData)) (data : PriceData) :
    (∀ prev : PriceData, mapGet prices data.pairKey = some prev → 0 < prev.price →
      mapGet (updatePrice prices data) data.pairKey =
        some { data with changePct := some ((data.price - prev.price) / prev.price * 100) }) ∧
    (∀ prev : PriceData, mapGet prices data.pairKey = some prev → prev.price ≤ 0 →
      mapGet (updatePrice prices data) data.pairKey = some { data with changePct := none }) ∧
    (mapGet prices data.pairKey = none →
      mapGet (updatePrice prices data) data.pairKey = some { data with changePct := none }) ∧
    (∀ k : String, k ≠ data.pairKey →
      mapGet (updatePrice prices data) k = mapGet prices k) := by
  refine ⟨?_, ?_, ?_, ?_⟩
  · intro prev hprev hpos
    unfold updatePrice
    rw [hprev]
    simp only [hpos, gt_iff_lt, if_pos]
    exact mapGet_mapSet_self prices data.pairKey _
  · intro prev hprev hnp
    unfold updatePrice
    rw [hprev]
    dsimp only
    rw [if_neg (not_lt.mpr hnp)]
    exact mapGet_mapSet_self prices data.pairKey _
  · intro hnone
    unfold updatePrice
    rw [hnone]
    dsimp only
    exact mapGet_mapSet_self prices data.pairKey _
  · intro k hk
    unfold updatePrice
    exact mapGet_mapSet_ne prices data.pairKey k _ hk

/-- Witness for C6: prior price 100 and new price 110 store a change of
exactly 10 percent. -/
theorem store_updatePrice_changePct_witness :
    mapGet (updatePrice
        [("SOL/USDC", ⟨"SOL/USDC", "SOL/USDC", 100, "raydium", 1, none⟩)]
        ⟨"SOL/USDC", "SOL/USDC", 110, "raydium", 2, none⟩) "SOL/USDC" =
      some ⟨"SOL/USDC", "SOL/USDC", 110, "raydium", 2, some 10⟩ := by
  have h := (store_updatePrice_changePct
      [("SOL/USDC", ⟨"SOL/USDC", "SOL/USDC", 100, "raydium", 1, none⟩)]
      ⟨"SOL/USDC", "SOL/USDC", 110, "raydium", 2, none⟩).1
      ⟨"SOL/USDC", "SOL/USDC", 100, "raydium", 1, none⟩ (by decide) (by norm_num)
  rw [h]
  norm_num

/-! ## Lemmas about composite network identifiers -/

theorem findIdx_colon_of_split (a b : List Char) (ha : ':' ∉ a) :
    (a ++ ':' :: b).findIdx (fun c => c = ':') = a.length := by
  induction a with
  | nil => simp [List.findIdx_cons]
  | cons x a ih =>
    simp only [List.mem_cons, not_or] at ha
    have hx : ¬ x = ':' := fun hc => ha.1 hc.symm
    rw [List.cons_append, List.findIdx_cons]
    simp [hx, ih ha.2]

theorem findIdx_colon_split (l : List Char)
    (h1 : 0 < l.findIdx (fun c => c = ':'))
    (h2 : l.findIdx (fun c => c = ':') + 1 < l.length) :
    ∃ a b : List Char, l = a ++ ':' :: b ∧ a ≠ [] ∧ b ≠ [] ∧ ':' ∉ a := by
  induction l with
  | nil => simp at h2
  | cons x l ih =>
    rw [List.findIdx_cons] at h1 h2
    by_cases hx : x = ':'
    · simp [hx] at h1
    · have hd : decide (x = ':') = false := by simp [hx]
      rw [hd] at h1 h2
      simp only [cond_false] at h1 h2
      simp only [List.length_cons] at h2
      by_cases h0 : 0 < l.findIdx (fun c => c = ':')
      · obtain ⟨a, b, hl, ha, hb, hna⟩ := ih h0 (by omega)
        refine ⟨x :: a, b, by simp [hl], by simp, hb, ?_⟩
        simp only [List.mem_cons, not_or]
        exact ⟨fun hc => hx hc.symm, hna⟩
      · have hfl : l.findIdx (fun c => c = ':') = 0 := by omega
        cases l with
        | nil => simp at h2
        | cons y l2 =>
          rw [List.findIdx_cons] at hfl
          by_cases hy : y = ':'
          · subst hy
            refine ⟨[x], l2, by simp, by simp, ?_,
              by simp only [List.mem_singleton]; exact fun hc => hx hc.symm⟩
            simp only [List.length_cons] at h2
            have : 0 < l2.length := by omega
            exact List.ne_nil_of_length_pos this
          · have hd2 : decide (y = ':') = false := by simp [hy]
            rw [hd2] at hfl
            simp at hfl

theorem mapAcceptsV2_ok_of_all (l : List PaymentRequirementsV2)
    (h : ∀ r ∈ l, isNetworkV2 r.network = true) : mapAcceptsV2 l = .ok l := by
  induction l with
  | nil => rfl
  | cons r rest ih =>
    unfold mapAcceptsV2
    rw [if_pos (h r (by simp)), ih (fun r2 h2 => h r2 (by simp [h2]))]

theorem mapAcceptsV2_error_of_bad (l : List PaymentRequirementsV2)
    (h : ∃ r ∈ l, isNetworkV2 r.network = false) : ∃ e, mapAcceptsV2 l = .error e := by
  induction l with
  | nil => simp at h
  | cons r rest ih =>
    unfold mapAcceptsV2
    by_cases hr : isNetworkV2 r.network = true
    · rw [if_pos hr]
      have hrest : ∃ r2 ∈ rest, isNetworkV2 r2.network = false := by
        obtain ⟨r2, hmem, hbad⟩ := h
        rcases List.mem_cons.mp hmem with heq | hmem2
        · rw [heq] at hbad
          exact absurd hr (by simp [hbad])
        · exact ⟨r2, hmem2, hbad⟩
      obtain ⟨e, he⟩ := ih hrest
      rw [he]
      exact ⟨e, rfl⟩
    · rw [if_neg hr]
      exact ⟨"invalid payment network: " ++ r.network, rfl⟩

/-! ## Claim C9 -/

/-- C9: building the signed payment from a version-2 PaymentRequired set
fails with an error when any requirement's network is not a valid
composite identifier, and normalization succeeds (so the error is not
raised) whenever every requirement's network is one; a valid composite
identifier is exactly a string that splits at its first colon into a
non-empty namespace and a non-empty reference. -/
theorem paymentRequired_network_validation (v : PaymentRequiredV2) :
    ((∃ r ∈ v.accepts, isNetworkV2 r.network = false) →
      ∃ e, toCorePaymentRequired v = .error e) ∧
    ((∀ r ∈ v.accepts, isNetworkV2 r.network = true) →
      toCorePaymentRequired v = .ok v) ∧
    (∀ s : String, isNetworkV2 s = true ↔
      ∃ a b : List Char, s.toList = a ++ ':' :: b ∧ a ≠ [] ∧ b ≠ [] ∧ ':' ∉ a) := by
  refine ⟨?_, ?_, ?_⟩
  · intro h
    obtain ⟨e, he⟩ := mapAcceptsV2_error_of_bad v.accepts h
    exact ⟨e, by unfold toCorePaymentRequired; rw [he]⟩
  · intro h
    unfold toCorePaymentRequired
    rw [mapAcceptsV2_ok_of_all v.accepts h]
  · intro s
    unfold isNetworkV2
    simp only [Bool.and_eq_true, decide_eq_true_eq]
    constructor
    · intro h
      exact findIdx_colon_split s.toList h.1 h.2
    · rintro ⟨a, b, hl, ha, hb, hna⟩
      rw [hl, findIdx_colon_of_split a b hna]
      constructor
      · exact List.length_pos.mpr ha
      · simp only [List.length_append, List.length_cons]
        have : 0 < b.length := List.length_pos.mpr hb
        omega

/-- Witness for C9: a v1-style network name `solana` is rejected, a
CAIP-2 identifier `solana:mainnet` is accepted. -/
theorem paymentRequired_network_validation_witness :
    (∃ e, toCorePaymentRequired
        ⟨2, ⟨"https://s", "d", "application/json"⟩,
          [⟨"exact", "solana", "1000000", "USDC", "payee", 60⟩], none⟩ = .error e) ∧
    toCorePaymentRequired
        ⟨2, ⟨"https://s", "d", "application/json"⟩,
          [⟨"exact", "solana:mainnet", "1000000", "USDC", "payee", 60⟩], none⟩ =
      .ok ⟨2, ⟨"https://s", "d", "application/json"⟩,
          [⟨"exact", "solana:mainnet", "1000000", "USDC", "payee", 60⟩], none⟩ ∧
    isNetworkV2 "solana:mainnet" = true :=
  ⟨(paymentRequired_network_validation
      ⟨2, ⟨"https://s", "d", "application/json"⟩,
        [⟨"exact", "solana", "1000000", "USDC", "payee", 60⟩], none⟩).1
      ⟨⟨"exact", "solana", "1000000", "USDC", "payee", 60⟩, by simp, by decide⟩,
   (paymentRequired_network_validation
      ⟨2, ⟨"https://s", "d", "application/json"⟩,
        [⟨"exact", "solana:mainnet", "1000000", "USDC", "payee", 60⟩], none⟩).2.1
      (by intro r hr; simp at hr; rw [hr]; decide),
   by decide⟩

/-! ## Lemmas about frame dispatch -/

theorem wsStatus_implies_wsEvent (v : JsVal) (h : isWsStatusEventJ v = true) :
    isWsEventJ v = true := by
  unfold isWsStatusEventJ at h
  unfold isWsEventJ
  simp only [Bool.and_eq_true] at h ⊢
  rcases h with ⟨⟨hrec, htype⟩, hnow⟩
  refine ⟨hrec, ?_⟩
  cases hv : getField v "type" with
  | none => rw [hv] at htype; simp at htype
  | some jv =>
    cases jv with
    | strV s => rfl
    | nullV => rw [hv] at htype; simp at htype
    | boolV b => rw [hv] at htype; simp at htype
    | numV q => rw [hv] at htype; simp at htype
    | arrV items => rw [hv] at htype; simp at htype
    | objV fields => rw [hv] at htype; simp at htype

/-! ## Claim C4 (corrected) -/

/-- C4 counterexample: a status frame (`type = "status"` with a string
`now`) is emitted on the status channel and then, because the handler
does not return after the status emit and the domain-event guard accepts
any record with a string `type`, also on the event channel — two
categories for one frame, refuting the claim that no frame is dispatched
under more than one category. -/
theorem frameDispatch_status_double_dispatch :
    dispatchFrame (.objV [("type", .strV "status"), ("now", .strV "2024-01-01T00:00:00Z")]) =
      [.statusChan, .eventChan] ∧
    (dispatchFrame (.objV [("type", .strV "status"),
      ("now", .strV "2024-01-01T00:00:00Z")])).length = 2 := by
  constructor
  · rfl
  · rfl

/-- C4 (amended): an x402 frame is dispatched only as lease-control; a
non-x402 frame matching the status shape is dispatched under both the
status and the domain-event categories; a non-x402 non-status frame with
a string `type` is dispatched as a domain event only; a frame matching
none of the shapes is silently dropped, and the handler never emits an
error for any decoded frame. -/
theorem frameDispatch_classification (v : JsVal) :
    (isWsX402EventJ v = true → dispatchFrame v = [.x402Chan]) ∧
    (isWsX402EventJ v = false → isWsStatusEventJ v = true →
      dispatchFrame v = [.statusChan, .eventChan]) ∧
    (isWsX402EventJ v = false → isWsStatusEventJ v = false → isWsEventJ v = true →
      dispatchFrame v = [.eventChan]) ∧
    (isWsX402EventJ v = false → isWsStatusEventJ v = false → isWsEventJ v = false →
      dispatchFrame v = []) ∧
    DispatchTarget.errorChan ∉ dispatchFrame v := by
  refine ⟨?_, ?_, ?_, ?_, ?_⟩
  · intro h
    simp [dispatchFrame, h]
  · intro h1 h2
    simp [dispatchFrame, h1, h2, wsStatus_implies_wsEvent v h2]
  · intro h1 h2 h3
    simp [dispatchFrame, h1, h2, h3]
  · intro h1 h2 h3
    simp [dispatchFrame, h1, h2, h3]
  · by_cases h1 : isWsX402EventJ v <;> by_cases h2 : isWsStatusEventJ v <;>
      by_cases h3 : isWsEventJ v <;> simp [dispatchFrame, h1, h2, h3]

/-- Witness for C4 (amended) on an x402 frame, a plain domain event, and
an unrecognized frame. -/
theorem frameDispatch_classification_witness :
    dispatchFrame (.objV [("op", .strV "renewed")]) = [.x402Chan] ∧
    dispatchFrame (.objV [("type", .strV "swap")]) = [.eventChan] ∧
    dispatchFrame (.numV 3) = [] :=
  ⟨(frameDispatch_classification (.objV [("op", .strV "renewed")])).1 (by rfl),
   (frameDispatch_classification (.objV [("type", .strV "swap")])).2.2.1 (by rfl) (by rfl) (by rfl),
   (frameDispatch_classification (.numV 3)).2.2.2.1 rfl rfl rfl⟩

/-! ## Lemmas about the watch-set operations -/

theorem mem_jsSetAdd (l : List String) (x w : String) :
    w ∈ jsSetAdd l x ↔ w ∈ l ∨ w = x := by
  unfold jsSetAdd
  by_cases h : x ∈ l
  · rw [if_pos h]
    constructor
    · exact Or.inl
    · rintro (h2 | h2)
      · exact h2
      · exact h2 ▸ h
  · rw [if_neg h]
    simp

theorem jsSetAdd_nodup (l : List String) (x : String) (h : l.Nodup) :
    (jsSetAdd l x).Nodup := by
  unfold jsSetAdd
  by_cases hx : x ∈ l
  · rwa [if_pos hx]
  · rw [if_neg hx]
    simp [List.nodup_append, h, hx]

theorem mem_jsSetOf_aux (l : List String) :
    ∀ (acc : List String) (w : String), w ∈ l.foldl jsSetAdd acc ↔ w ∈ acc ∨ w ∈ l := by
  induction l with
  | nil => intro acc w; simp
  | cons x xs ih =>
    intro acc w
    rw [List.foldl_cons, ih]
    rw [mem_jsSetAdd]
    simp only [List.mem_cons]
    tauto

theorem mem_jsSetOf (l : List String) (w : String) : w ∈ jsSetOf l ↔ w ∈ l := by
  unfold jsSetOf
  rw [mem_jsSetOf_aux]
  simp

theorem jsSetOf_nodup_aux (l : List String) :
    ∀ acc : List String, acc.Nodup → (l.foldl jsSetAdd acc).Nodup := by
  induction l with
  | nil => intro acc h; exact h
  | cons x xs ih =>
    intro acc h
    rw [List.foldl_cons]
    exact ih (jsSetAdd acc x) (jsSetAdd_nodup acc x h)

theorem jsSetOf_nodup (l : List String) : (jsSetOf l).Nodup :=
  jsSetOf_nodup_aux l [] List.nodup_nil

theorem mergeStep_mem (next added : List String) (v : String) (hv : v ∈ next) :
    mergeStep (next, added) v = (next, added) := by
  unfold mergeStep
  rw [if_pos hv]

theorem mergeStep_not_mem (next added : List String) (v : String) (hv : v ∉ next) :
    mergeStep (next, added) v = (next ++ [v], added ++ [v]) := by
  unfold mergeStep
  rw [if_neg hv]

theorem subStep_mem (next removed : List String) (v : String) (hv : v ∈ next) :
    subStep (next, removed) v = (next.filter (fun w => decide (w ≠ v)), removed ++ [v]) := by
  unfold subStep
  rw [if_pos hv]

theorem subStep_not_mem (next removed : List String) (v : String) (hv : v ∉ next) :
    subStep (next, removed) v = (next, removed) := by
  unfold subStep
  rw [if_neg hv]

theorem mergeFold_fst_mem (inc : List String) :
    ∀ (next added : List String) (w : String),
      w ∈ (inc.foldl mergeStep (next, added)).1 ↔ w ∈ next ∨ w ∈ inc := by
  induction inc with
  | nil => intro next added w; simp
  | cons v vs ih =>
    intro next added w
    rw [List.foldl_cons]
    by_cases hv : v ∈ next
    · rw [mergeStep_mem next added v hv, ih]
      simp only [List.mem_cons]
      constructor
      · rintro (h | h)
        · exact Or.inl h
        · exact Or.inr (Or.inr h)
      · rintro (h | h | h)
        · exact Or.inl h
        · exact Or.inl (h ▸ hv)
        · exact Or.inr h
    · rw [mergeStep_not_mem next added v hv, ih]
      simp only [List.mem_append, List.mem_singleton, List.mem_cons]
      tauto

theorem mergeFold_snd_mem (inc : List String) :
    ∀ (next added : List String) (w : String),
      w ∈ (inc.foldl mergeStep (next, added)).2 ↔ w ∈ added ∨ (w ∈ inc ∧ w ∉ next) := by
  induction inc with
  | nil => intro next added w; simp
  | cons v vs ih =>
    intro next added w
    rw [List.foldl_cons]
    by_cases hv : v ∈ next
    · rw [mergeStep_mem next added v hv, ih]
      simp only [List.mem_cons]
      constructor
      · rintro (h | ⟨h1, h2⟩)
        · exact Or.inl h
        · exact Or.inr ⟨Or.inr h1, h2⟩
      · rintro (h | ⟨h1 | h1, h2⟩)
        · exact Or.inl h
        · exact absurd (h1 ▸ hv) h2
        · exact Or.inr ⟨h1, h2⟩
    · rw [mergeStep_not_mem next added v hv, ih]
      simp only [List.mem_append, List.mem_singleton, List.mem_cons, List.not_mem_nil, or_false]
      by_cases hw : w = v
      · subst hw
        constructor
        · intro _
          exact Or.inr ⟨Or.inl rfl, hv⟩
        · intro _
          exact Or.inl (Or.inr rfl)
      · constructor
        · rintro ((h | h) | ⟨h1, h2⟩)
          · exact Or.inl h
          · exact absurd h hw
          · push_neg at h2
            exact Or.inr ⟨Or.inr h1, h2.1⟩
        · rintro (h | ⟨h1 | h1, h2⟩)
          · exact Or.inl (Or.inl h)
          · exact absurd h1 hw
          · exact Or.inr ⟨h1, by push_neg; exact ⟨h2, hw⟩⟩

theorem mergeFold_fst_nodup (inc : List String) :
    ∀ (next added : List String), next.Nodup → (inc.foldl mergeStep (next, added)).1.Nodup := by
  induction inc with
  | nil => intro next added h; exact h
  | cons v vs ih =>
    intro next added h
    rw [List.foldl_cons]
    by_cases hv : v ∈ next
    · rw [mergeStep_mem next added v hv]
      exact ih next added h
    · rw [mergeStep_not_mem next added v hv]
      exact ih (next ++ [v]) (added ++ [v]) (by simp [List.nodup_append, h, hv])

theorem mergeFold_snd_nodup (inc : List String) :
    ∀ (next added : List String), next.Nodup → added.Nodup → (∀ w ∈ added, w ∈ next) →
      (inc.foldl mergeStep (next, added)).2.Nodup := by
  induction inc with
  | nil => intro next added _ h _; exact h
  | cons v vs ih =>
    intro next added hn ha hsub
    rw [List.foldl_cons]
    by_cases hv : v ∈ next
    · rw [mergeStep_mem next added v hv]
      exact ih next added hn ha hsub
    · rw [mergeStep_not_mem next added v hv]
      have hva : v ∉ added := fun hc => hv (hsub v hc)
      refine ih (next ++ [v]) (added ++ [v])
        (by simp [List.nodup_append, hn, hv])
        (by simp [List.nodup_append, ha, hva]) ?_
      intro w hw
      simp only [List.mem_append, List.mem_singleton] at hw ⊢
      rcases hw with h2 | h2
      · exact Or.inl (hsub w h2)
      · exact Or.inr h2

theorem subFold_fst_mem (inc : List String) :
    ∀ (next removed : List String) (w : String),
      w ∈ (inc.foldl subStep (next, removed)).1 ↔ w ∈ next ∧ w ∉ inc := by
  induction inc with
  | nil => intro next removed w; simp
  | cons v vs ih =>
    intro next removed w
    rw [List.foldl_cons]
    by_cases hv : v ∈ next
    · rw [subStep_mem next removed v hv, ih]
      simp only [List.mem_filter, decide_eq_true_eq, List.mem_cons]
      constructor
      · rintro ⟨⟨h1, h2⟩, h3⟩
        exact ⟨h1, by push_neg; exact ⟨h2, h3⟩⟩
      · rintro ⟨h1, h2⟩
        push_neg at h2
        exact ⟨⟨h1, h2.1⟩, h2.2⟩
    · rw [subStep_not_mem next removed v hv, ih]
      simp only [List.mem_cons]
      constructor
      · rintro ⟨h1, h2⟩
        refine ⟨h1, ?_⟩
        push_neg
        exact ⟨fun hc => hv (hc ▸ h1), h2⟩
      · rintro ⟨h1, h2⟩
        push_neg at h2
        exact ⟨h1, h2.2⟩

theorem subFold_snd_mem (inc : List String) :
    ∀ (next removed : List String) (w : String),
      w ∈ (inc.foldl subStep (next, removed)).2 ↔ w ∈ removed ∨ (w ∈ inc ∧ w ∈ next) := by
  induction inc with
  | nil => intro next removed w; simp
  | cons v vs ih =>
    intro next removed w
    rw [List.foldl_cons]
    by_cases hv : v ∈ next
    · rw [subStep_mem next removed v hv, ih]
      simp only [List.mem_append, List.mem_singleton, List.mem_filter, decide_eq_true_eq,
        List.mem_cons, List.not_mem_nil, or_false]
      by_cases hw : w = v
      · subst hw
        constructor
        · intro _
          exact Or.inr ⟨Or.inl rfl, hv⟩
        · intro _
          exact Or.inl (Or.inr rfl)
      · constructor
        · rintro ((h | h) | ⟨h1, h2, h3⟩)
          · exact Or.inl h
          · exact absurd h hw
          · exact Or.inr ⟨Or.inr h1, h2⟩
        · rintro (h | ⟨h1 | h1, h2⟩)
          · exact Or.inl (Or.inl h)
          · exact absurd h1 hw
          · exact Or.inr ⟨h1, h2, hw⟩
    · rw [subStep_not_mem next removed v hv, ih]
      simp only [List.mem_cons]
      constructor
      · rintro (h | ⟨h1, h2⟩)
        · exact Or.inl h
        · exact Or.inr ⟨Or.inr h1, h2⟩
      · rintro (h | ⟨h1 | h1, h2⟩)
        · exact Or.inl h
        · exact absurd (h1 ▸ h2) hv
        · exact Or.inr ⟨h1, h2⟩

theorem subFold_fst_nodup (inc : List String) :
    ∀ (next removed : List String), next.Nodup → (inc.foldl subStep (next, removed)).1.Nodup := by
  induction inc with
  | nil => intro next removed h; exact h
  | cons v vs ih =>
    intro next removed h
    rw [List.foldl_cons]
    by_cases hv : v ∈ next
    · rw [subStep_mem next removed v hv]
      exact ih _ _ (h.filter _)
    · rw [subStep_not_mem next removed v hv]
      exact ih next removed h

theorem subFold_snd_nodup (inc : List String) :
    ∀ (next removed : List String), removed.Nodup → (∀ w ∈ removed, w ∉ next) →
      (inc.foldl subStep (next, removed)).2.Nodup := by
  induction inc with
  | nil => intro next removed h _; exact h
  | cons v vs ih =>
    intro next removed hr hdisj
    rw [List.foldl_cons]
    by_cases hv : v ∈ next
    · rw [subStep_mem next removed v hv]
      have hvr : v ∉ removed := fun hc => hdisj v hc hv
      refine ih _ _ (by simp [List.nodup_append, hr, hvr]) ?_
      intro w hw
      simp only [List.mem_append, List.mem_singleton, List.not_mem_nil, or_false,
        List.mem_cons] at hw
      simp only [List.mem_filter, decide_eq_true_eq, not_and]
      rcases hw with h2 | h2
      · intro hwn
        exact absurd hwn (hdisj w h2)
      · intro hwn hne
        exact hne h2
    · rw [subStep_not_mem next removed v hv]
      exact ih next removed hr hdisj

theorem mergeList_spec (cur : Option (List String)) (inc : List String) :
    (∀ w, w ∈ (mergeList cur inc).2 ↔ w ∈ inc ∧ w ∉ cur.getD []) ∧
    ((mergeList cur inc).2 = [] ↔ ∀ w ∈ inc, w ∈ cur.getD []) ∧
    (mergeList cur inc).2.Nodup ∧
    (∀ w, w ∈ (mergeList cur inc).1 ↔ w ∈ cur.getD [] ∨ w ∈ inc) ∧
    (mergeList cur inc).1.Nodup := by
  unfold mergeList
  have hm := mergeFold_snd_mem inc (jsSetOf (cur.getD [])) []
  have hf := mergeFold_fst_mem inc (jsSetOf (cur.getD [])) []
  have hmem : ∀ w, w ∈ (inc.foldl mergeStep (jsSetOf (cur.getD []), [])).2 ↔
      w ∈ inc ∧ w ∉ cur.getD [] := by
    intro w
    rw [hm w]
    simp [mem_jsSetOf]
  refine ⟨hmem, ?_, ?_, ?_, ?_⟩
  · rw [List.eq_nil_iff_forall_not_mem]
    constructor
    · intro h w hw
      by_contra hc
      exact h w ((hmem w).mpr ⟨hw, hc⟩)
    · intro h w hw
      obtain ⟨h2, h3⟩ := (hmem w).mp hw
      exact h3 (h w h2)
  · exact mergeFold_snd_nodup inc _ [] (jsSetOf_nodup _) List.nodup_nil (by simp)
  · intro w
    rw [hf w]
    simp [mem_jsSetOf]
  · exact mergeFold_fst_nodup inc _ [] (jsSetOf_nodup _)

theorem subtractList_spec (cur : Option (List String)) (inc : List String) :
    (∀ w, w ∈ (subtractList cur inc).2 ↔ w ∈ inc ∧ w ∈ cur.getD []) ∧
    ((subtractList cur inc).2 = [] ↔ ∀ w ∈ inc, w ∉ cur.getD []) ∧
    (subtractList cur inc).2.Nodup ∧
    (∀ w, w ∈ (subtractList cur inc).1 ↔ w ∈ cur.getD [] ∧ w ∉ inc) ∧
    (subtractList cur inc).1.Nodup := by
  unfold subtractList
  have hm := subFold_snd_mem inc (jsSetOf (cur.getD [])) []
  have hf := subFold_fst_mem inc (jsSetOf (cur.getD [])) []
  have hmem : ∀ w, w ∈ (inc.foldl subStep (jsSetOf (cur.getD []), [])).2 ↔
      w ∈ inc ∧ w ∈ cur.getD [] := by
    intro w
    rw [hm w]
    simp [mem_jsSetOf]
  refine ⟨hmem, ?_, ?_, ?_, ?_⟩
  · rw [List.eq_nil_iff_forall_not_mem]
    constructor
    · intro h w hw hc
      exact h w ((hmem w).mpr ⟨hw, hc⟩)
    · intro h w hw
      obtain ⟨h2, h3⟩ := (hmem w).mp hw
      exact h w h2 h3
  · refine subFold_snd_nodup inc _ [] List.nodup_nil (by simp)
  · intro w
    rw [hf w]
    simp [mem_jsSetOf]
  · exact subFold_fst_nodup inc _ [] (jsSetOf_nodup _)

theorem addMints_nil (st : ClientState) (xs : List String) (h : normalizeList xs = []) :
    StreamClient.addMints st xs = (st, none) := by
  simp [StreamClient.addMints, h]

theorem addMints_empty_delta (st : ClientState) (xs : List String)
    (h : (mergeList st.config.watchMints (normalizeList xs)).2 = []) :
    StreamClient.addMints st xs = (st, none) := by
  by_cases h0 : normalizeList xs = []
  · simp [StreamClient.addMints, h0]
  · simp [StreamClient.addMints, h0, h]

theorem addMints_delta (st : ClientState) (xs : List String)
    (h0 : normalizeList xs ≠ [])
    (h : (mergeList st.config.watchMints (normalizeList xs)).2 ≠ []) :
    StreamClient.addMints st xs =
      ({ st with config := { st.config with
          watchMints := some (mergeList st.config.watchMints (normalizeList xs)).1 } },
        some (.addMintsMsg (mergeList st.config.watchMints (normalizeList xs)).2)) := by
  simp [StreamClient.addMints, h0, h]

theorem removeMints_nil (st : ClientState) (xs : List String) (h : normalizeList xs = []) :
    StreamClient.removeMints st xs = (st, none) := by
  simp [StreamClient.removeMints, h]

theorem removeMints_empty_delta (st : ClientState) (xs : List String)
    (h : (subtractList st.config.watchMints (normalizeList xs)).2 = []) :
    StreamClient.removeMints st xs = (st, none) := by
  by_cases h0 : normalizeList xs = []
  · simp [StreamClient.removeMints, h0]
  · simp [StreamClient.removeMints, h0, h]

theorem removeMints_delta (st : ClientState) (xs : List String)
    (h0 : normalizeList xs ≠ [])
    (h : (subtractList st.config.watchMints (normalizeList xs)).2 ≠ []) :
    StreamClient.removeMints st xs =
      ({ st with config := { st.config with
          watchMints := some (subtractList st.config.watchMints (normalizeList xs)).1 } },
        some (.removeMintsMsg (subtractList st.config.watchMints (normalizeList xs)).2)) := by
  simp [StreamClient.removeMints, h0, h]

theorem addAccounts_nil (st : ClientState) (xs : List String) (h : normalizeList xs = []) :
    StreamClient.addAccounts st xs = (st, none) := by
  simp [StreamClient.addAccounts, h]

theorem addAccounts_empty_delta (st : ClientState) (xs : List String)
    (h : (mergeList st.config.watchAccounts (normalizeList xs)).2 = []) :
    StreamClient.addAccounts st xs = (st, none) := by
  by_cases h0 : normalizeList xs = []
  · simp [StreamClient.addAccounts, h0]
  · simp [StreamClient.addAccounts, h0, h]

theorem addAccounts_delta (st : ClientState) (xs : List String)
    (h0 : normalizeList xs ≠ [])
    (h : (mergeList st.config.watchAccounts (normalizeList xs)).2 ≠ []) :
    StreamClient.addAccounts st xs =
      ({ st with config := { st.config with
          watchAccounts := some (mergeList st.config.watchAccounts (normalizeList xs)).1 } },
        some (.addAccountsMsg (mergeList st.config.watchAccounts (normalizeList xs)).2)) := by
  simp [StreamClient.addAccounts, h0, h]

theorem removeAccounts_nil (st : ClientState) (xs : List String) (h : normalizeList xs = []) :
    StreamClient.removeAccounts st xs = (st, none) := by
  simp [StreamClient.removeAccounts, h]

theorem removeAccounts_empty_delta (st : ClientState) (xs : List String)
    (h : (subtractList st.config.watchAccounts (normalizeList xs)).2 = []) :
    StreamClient.removeAccounts st xs = (st, none) := by
  by_cases h0 : normalizeList xs = []
  · simp [StreamClient.removeAccounts, h0]
  · simp [StreamClient.removeAccounts, h0, h]

theorem removeAccounts_delta (st : ClientState) (xs : List String)
    (h0 : normalizeList xs ≠ [])
    (h : (subtractList st.config.watchAccounts (normalizeList xs)).2 ≠ []) :
    StreamClient.removeAccounts st xs =
      ({ st with config := { st.config with
          watchAccounts := some (subtractList st.config.watchAccounts (normalizeList xs)).1 } },
        some (.removeAccountsMsg (subtractList st.config.watchAccounts (normalizeList xs)).2)) := by
  simp [StreamClient.removeAccounts, h0, h]

/-! ## Claim C1 -/

/-- C1: each watch-list mutation call sends at most one wire message
(the embedding returns an `Option ClientMsg`, the argument of the single
`send` in each method); when a message is sent its item list is exactly
the delta against the session's current watch-set — for an add, the
normalized incoming items not already present; for a remove, the
normalized incoming items actually present — each item once; and a call
whose delta is empty (re-adding watched items, removing absent ones, or
an input that normalizes to nothing) sends no message and leaves the
state unchanged.  The state `st` is universally quantified, so this
covers every call of every call sequence. -/
theorem watchlist_delta_mutation (st : ClientState) (xs : List String) :
    (((StreamClient.addMints st xs).2 = none ↔
        ∀ w ∈ normalizeList xs, w ∈ st.config.watchMints.getD []) ∧
      ((StreamClient.addMints st xs).2 = none → (StreamClient.addMints st xs).1 = st) ∧
      (∀ m, (StreamClient.addMints st xs).2 = some m →
        ∃ l, m = ClientMsg.addMintsMsg l ∧ l ≠ [] ∧ l.Nodup ∧
          (∀ w, w ∈ l ↔ w ∈ normalizeList xs ∧ w ∉ st.config.watchMints.getD []) ∧
          ∃ nxt, (StreamClient.addMints st xs).1.config.watchMints = some nxt ∧ nxt.Nodup ∧
            (∀ w, w ∈ nxt ↔ w ∈ st.config.watchMints.getD [] ∨ w ∈ normalizeList xs))) ∧
    (((StreamClient.removeMints st xs).2 = none ↔
        ∀ w ∈ normalizeList xs, w ∉ st.config.watchMints.getD []) ∧
      ((StreamClient.removeMints st xs).2 = none → (StreamClient.removeMints st xs).1 = st) ∧
      (∀ m, (StreamClient.removeMints st xs).2 = some m →
        ∃ l, m = ClientMsg.removeMintsMsg l ∧ l ≠ [] ∧ l.Nodup ∧
          (∀ w, w ∈ l ↔ w ∈ normalizeList xs ∧ w ∈ st.config.watchMints.getD []) ∧
          ∃ nxt, (StreamClient.removeMints st xs).1.config.watchMints = some nxt ∧ nxt.Nodup ∧
            (∀ w, w ∈ nxt ↔ w ∈ st.config.watchMints.getD [] ∧ w ∉ normalizeList xs))) ∧
    (((StreamClient.addAccounts st xs).2 = none ↔
        ∀ w ∈ normalizeList xs, w ∈ st.config.watchAccounts.getD []) ∧
      ((StreamClient.addAccounts st xs).2 = none → (StreamClient.addAccounts st xs).1 = st) ∧
      (∀ m, (StreamClient.addAccounts st xs).2 = some m →
        ∃ l, m = ClientMsg.addAccountsMsg l ∧ l ≠ [] ∧ l.Nodup ∧
          (∀ w, w ∈ l ↔ w ∈ normalizeList xs ∧ w ∉ st.config.watchAccounts.getD []) ∧
          ∃ nxt, (StreamClient.addAccounts st xs).1.config.watchAccounts = some nxt ∧ nxt.Nodup ∧
            (∀ w, w ∈ nxt ↔ w ∈ st.config.watchAccounts.getD [] ∨ w ∈ normalizeList xs))) ∧
    (((StreamClient.removeAccounts st xs).2 = none ↔
        ∀ w ∈ normalizeList xs, w ∉ st.config.watchAccounts.getD []) ∧
      ((StreamClient.removeAccounts st xs).2 = none → (StreamClient.removeAccounts st xs).1 = st) ∧
      (∀ m, (StreamClient.removeAccounts st xs).2 = some m →
        ∃ l, m = ClientMsg.removeAccountsMsg l ∧ l ≠ [] ∧ l.Nodup ∧
          (∀ w, w ∈ l ↔ w ∈ normalizeList xs ∧ w ∈ st.config.watchAccounts.getD []) ∧
          ∃ nxt, (StreamClient.removeAccounts st xs).1.config.watchAccounts = some nxt ∧
            nxt.Nodup ∧
            (∀ w, w ∈ nxt ↔ w ∈ st.config.watchAccounts.getD [] ∧ w ∉ normalizeList xs))) := by
  have hma := mergeList_spec st.config.watchMints (normalizeList xs)
  have hms := subtractList_spec st.config.watchMints (normalizeList xs)
  have haa := mergeList_spec st.config.watchAccounts (normalizeList xs)
  have has := subtractList_spec st.config.watchAccounts (normalizeList xs)
  refine ⟨⟨?_, ?_, ?_⟩, ⟨?_, ?_, ?_⟩, ⟨?_, ?_, ?_⟩, ⟨?_, ?_, ?_⟩⟩
  · constructor
    · intro h
      by_cases h0 : normalizeList xs = []
      · rw [h0]
        intro w hw
        simp at hw
      · by_cases h2 : (mergeList st.config.watchMints (normalizeList xs)).2 = []
        · exact hma.2.1.mp h2
        · rw [addMints_delta st xs h0 h2] at h
          simp at h
    · intro hall
      by_cases h0 : normalizeList xs = []
      · rw [addMints_nil st xs h0]
      · rw [addMints_empty_delta st xs (hma.2.1.mpr hall)]
  · intro h
    by_cases h0 : normalizeList xs = []
    · rw [addMints_nil st xs h0]
    · by_cases h2 : (mergeList st.config.watchMints (normalizeList xs)).2 = []
      · rw [addMints_empty_delta st xs h2]
      · rw [addMints_delta st xs h0 h2] at h
        simp at h
  · intro m hm
    by_cases h0 : normalizeList xs = []
    · rw [addMints_nil st xs h0] at hm
      simp at hm
    · by_cases h2 : (mergeList st.config.watchMints (normalizeList xs)).2 = []
      · rw [addMints_empty_delta st xs h2] at hm
        simp at hm
      · rw [addMints_delta st xs h0 h2] at hm
        simp only [Option.some_inj] at hm
        refine ⟨(mergeList st.config.watchMints (normalizeList xs)).2, hm.symm, h2,
          hma.2.2.1, hma.1, (mergeList st.config.watchMints (normalizeList xs)).1,
          by rw [addMints_delta st xs h0 h2], hma.2.2.2.2, hma.2.2.2.1⟩
  · constructor
    · intro h
      by_cases h0 : normalizeList xs = []
      · rw [h0]
        intro w hw
        simp at hw
      · by_cases h2 : (subtractList st.config.watchMints (normalizeList xs)).2 = []
        · exact hms.2.1.mp h2
        · rw [removeMints_delta st xs h0 h2] at h
          simp at h
    · intro hall
      by_cases h0 : normalizeList xs = []
      · rw [removeMints_nil st xs h0]
      · rw [removeMints_empty_delta st xs (hms.2.1.mpr hall)]
  · intro h
    by_cases h0 : normalizeList xs = []
    · rw [removeMints_nil st xs h0]
    · by_cases h2 : (subtractList st.config.watchMints (normalizeList xs)).2 = []
      · rw [removeMints_empty_delta st xs h2]
      · rw [removeMints_delta st xs h0 h2] at h
        simp at h
  · intro m hm
    by_cases h0 : normalizeList xs = []
    · rw [removeMints_nil st xs h0] at hm
      simp at hm
    · by_cases h2 : (subtractList st.config.watchMints (normalizeList xs)).2 = []
      · rw [removeMints_empty_delta st xs h2] at hm
        simp at hm
      · rw [removeMints_delta st xs h0 h2] at hm
        simp only [Option.some_inj] at hm
        refine ⟨(subtractList st.config.watchMints (normalizeList xs)).2, hm.symm, h2,
          hms.2.2.1, hms.1, (subtractList st.config.watchMints (normalizeList xs)).1,
          by rw [removeMints_delta st xs h0 h2], hms.2.2.2.2, hms.2.2.2.1⟩
  · constructor
    · intro h
      by_cases h0 : normalizeList xs = []
      · rw [h0]
        intro w hw
        simp at hw
      · by_cases h2 : (mergeList st.config.watchAccounts (normalizeList xs)).2 = []
        · exact haa.2.1.mp h2
        · rw [addAccounts_delta st xs h0 h2] at h
          simp at h
    · intro hall
      by_cases h0 : normalizeList xs = []
      · rw [addAccounts_nil st xs h0]
      · rw [addAccounts_empty_delta st xs (haa.2.1.mpr hall)]
  · intro h
    by_cases h0 : normalizeList xs = []
    · rw [addAccounts_nil st xs h0]
    · by_cases h2 : (mergeList st.config.watchAccounts (normalizeList xs)).2 = []
      · rw [addAccounts_empty_delta st xs h2]
      · rw [addAccounts_delta st xs h0 h2] at h
        simp at h
  · intro m hm
    by_cases h0 : normalizeList xs = []
    · rw [addAccounts_nil st xs h0] at hm
      simp at hm
    · by_cases h2 : (mergeList st.config.watchAccounts (normalizeList xs)).2 = []
      · rw [addAccounts_empty_delta st xs h2] at hm
        simp at hm
      · rw [addAccounts_delta st xs h0 h2] at hm
        simp only [Option.some_inj] at hm
        refine ⟨(mergeList st.config.watchAccounts (normalizeList xs)).2, hm.symm, h2,
          haa.2.2.1, haa.1, (mergeList st.config.watchAccounts (normalizeList xs)).1,
          by rw [addAccounts_delta st xs h0 h2], haa.2.2.2.2, haa.2.2.2.1⟩
  · constructor
    · intro h
      by_cases h0 : normalizeList xs = []
      · rw [h0]
        intro w hw
        simp at hw
      · by_cases h2 : (subtractList st.config.watchAccounts (normalizeList xs)).2 = []
        · exact has.2.1.mp h2
        · rw [removeAccounts_delta st xs h0 h2] at h
          simp at h
    · intro hall
      by_cases h0 : normalizeList xs = []
      · rw [removeAccounts_nil st xs h0]
      · rw [removeAccounts_empty_delta st xs (has.2.1.mpr hall)]
  · intro h
    by_cases h0 : normalizeList xs = []
    · rw [removeAccounts_nil st xs h0]
    · by_cases h2 : (subtractList st.config.watchAccounts (normalizeList xs)).2 = []
      · rw [removeAccounts_empty_delta st xs h2]
      · rw [removeAccounts_delta st xs h0 h2] at h
        simp at h
  · intro m hm
    by_cases h0 : normalizeList xs = []
    · rw [removeAccounts_nil st xs h0] at hm
      simp at hm
    · by_cases h2 : (subtractList st.config.watchAccounts (normalizeList xs)).2 = []
      · rw [removeAccounts_empty_delta st xs h2] at hm
        simp at hm
      · rw [removeAccounts_delta st xs h0 h2] at hm
        simp only [Option.some_inj] at hm
        refine ⟨(subtractList st.config.watchAccounts (normalizeList xs)).2, hm.symm, h2,
          has.2.2.1, has.1, (subtractList st.config.watchAccounts (normalizeList xs)).1,
          by rw [removeAccounts_delta st xs h0 h2], has.2.2.2.2, has.2.2.2.1⟩

/-- Witness for C1: re-adding the already-watched mint and removing an
absent one send nothing; adding `["m1", " m2 "]` against watch-set
`["m1"]` sends exactly the normalized delta `["m2"]`. -/
theorem watchlist_delta_mutation_witness :
    (StreamClient.addMints wSampleClient ["m1"]).2 = none ∧
    (StreamClient.removeMints wSampleClient ["zz"]).2 = none ∧
    (∃ l, ClientMsg.addMintsMsg ["m2"] = ClientMsg.addMintsMsg l ∧ l ≠ [] ∧ l.Nodup ∧
      (∀ w, w ∈ l ↔ w ∈ normalizeList ["m1", " m2 "] ∧
        w ∉ wSampleClient.config.watchMints.getD []) ∧
      ∃ nxt,
        (StreamClient.addMints wSampleClient ["m1", " m2 "]).1.config.watchMints = some nxt ∧
        nxt.Nodup ∧
        (∀ w, w ∈ nxt ↔ w ∈ wSampleClient.config.watchMints.getD [] ∨
          w ∈ normalizeList ["m1", " m2 "])) :=
  ⟨(watchlist_delta_mutation wSampleClient ["m1"]).1.1.mpr (by decide),
   (watchlist_delta_mutation wSampleClient ["zz"]).2.1.1.mpr (by decide),
   (watchlist_delta_mutation wSampleClient ["m1", " m2 "]).1.2.2
     (ClientMsg.addMintsMsg ["m2"]) (by rfl)⟩

/-! ## Claim C2 -/

/-- C2: a `renewal_reminder` or `payment_required` frame whose price
hint parses to amount `A` of asset `X` records `⟨A, X⟩` as pending for
the stream without changing any confirmed spend total; the next
`renewed` frame for the stream adds exactly `A` of `X` to that stream's
confirmed total and clears the pending entry, leaving other streams'
totals unchanged; and a `renewed` frame arriving with no pending entry
for the stream is a no-op on the whole ledger state. -/
theorem spendLedger_pending_confirmed (st : SpendState) (sid hint : String) (A : ℤ)
    (X : String) (e₁ e₂ : WsX402Ev)
    (hwf : (st.pendingCharges.map Prod.fst).Nodup)
    (h₁ : e₁.op = "renewal_reminder" ∨ e₁.op = "payment_required")
    (hhint : (e₁.renewHttpPriceHint <|> e₁.renewInbandPriceHint) = some hint)
    (hparse : parsePriceHint hint = some ⟨A, X⟩)
    (h₂ : e₂.op = "renewed") :
    mapGet (handleX402Event st sid e₁).pendingCharges sid = some ⟨A, X⟩ ∧
    (∀ s, confirmedRaw (handleX402Event st sid e₁) s = confirmedRaw st s) ∧
    mapGet (handleX402Event (handleX402Event st sid e₁) sid e₂).spendTotals sid =
      some ⟨confirmedRaw (handleX402Event st sid e₁) sid + A, X⟩ ∧
    mapGet (handleX402Event (handleX402Event st sid e₁) sid e₂).pendingCharges sid = none ∧
    (∀ s, s ≠ sid → confirmedRaw (handleX402Event (handleX402Event st sid e₁) sid e₂) s =
      confirmedRaw (handleX402Event st sid e₁) s) ∧
    (∀ (st2 : SpendState) (e : WsX402Ev), e.op = "renewed" →
      mapGet st2.pendingCharges sid = none → handleX402Event st2 sid e = st2) := by
  have hst1 : handleX402Event st sid e₁ =
      { pendingCharges := mapSet st.pendingCharges sid ⟨A, X⟩
        spendTotals :=
          if mapHas st.spendTotals sid then st.spendTotals
          else mapSet st.spendTotals sid ⟨0, X⟩ } := by
    unfold handleX402Event
    rw [if_pos h₁, hhint]
    simp only [hparse]
  have hpend1 : mapGet (handleX402Event st sid e₁).pendingCharges sid = some ⟨A, X⟩ := by
    rw [hst1]
    exact mapGet_mapSet_self st.pendingCharges sid ⟨A, X⟩
  have hraw1 : ∀ s, confirmedRaw (handleX402Event st sid e₁) s = confirmedRaw st s := by
    intro s
    rw [hst1]
    unfold confirmedRaw
    dsimp only
    by_cases hhas : mapHas st.spendTotals sid
    · rw [if_pos hhas]
    · rw [if_neg hhas]
      by_cases hs : s = sid
      · subst hs
        have hnone : mapGet st.spendTotals s = none := by
          unfold mapHas at hhas
          exact Option.not_isSome_iff_eq_none.mp hhas
        rw [mapGet_mapSet_self, hnone]
        rfl
      · rw [mapGet_mapSet_ne st.spendTotals sid s ⟨0, X⟩ hs]
  have hop2 : ¬ (e₂.op = "renewal_reminder" ∨ e₂.op = "payment_required") := by
    rw [h₂]
    decide
  have hwf1 : ((handleX402Event st sid e₁).pendingCharges.map Prod.fst).Nodup := by
    rw [hst1]
    exact mapSet_keys_nodup st.pendingCharges sid ⟨A, X⟩ hwf
  have hst2gen : ∀ st1 : SpendState, mapGet st1.pendingCharges sid = some ⟨A, X⟩ →
      handleX402Event st1 sid e₂ =
      { pendingCharges := mapDelete st1.pendingCharges sid
        spendTotals := mapSet st1.spendTotals sid
          ⟨((mapGet st1.spendTotals sid).getD ⟨0, X⟩).totalRaw + A, X⟩ } := by
    intro st1 hp
    unfold handleX402Event
    rw [if_neg hop2, if_pos h₂, hp]
  have hst2 : handleX402Event (handleX402Event st sid e₁) sid e₂ =
      { pendingCharges := mapDelete (handleX402Event st sid e₁).pendingCharges sid
        spendTotals := mapSet (handleX402Event st sid e₁).spendTotals sid
          ⟨((mapGet (handleX402Event st sid e₁).spendTotals sid).getD ⟨0, X⟩).totalRaw + A,
            X⟩ } :=
    hst2gen (handleX402Event st sid e₁) hpend1
  have hcur : ((mapGet (handleX402Event st sid e₁).spendTotals sid).getD ⟨0, X⟩).totalRaw =
      confirmedRaw (handleX402Event st sid e₁) sid := by
    unfold confirmedRaw
    cases hg : mapGet (handleX402Event st sid e₁).spendTotals sid with
    | none => rfl
    | some entry => rfl
  refine ⟨hpend1, hraw1, ?_, ?_, ?_, ?_⟩
  · rw [hst2]
    dsimp only
    rw [mapGet_mapSet_self, hcur]
  · rw [hst2]
    dsimp only
    exact mapGet_mapDelete_self _ sid hwf1
  · intro s hs
    rw [hst2]
    unfold confirmedRaw
    dsimp only
    rw [mapGet_mapSet_ne _ sid s _ hs]
  · intro st2 e hop hnone
    unfold handleX402Event
    rw [if_neg (by rw [hop]; decide), if_pos hop, hnone]

/-- Witness for C2: on an empty ledger, the hint
`amount=500 asset=X` is recorded pending, then a `renewed` frame moves
exactly 500 units of X into the confirmed total and clears the pending
entry. -/
theorem spendLedger_pending_confirmed_witness :
    mapGet (handleX402Event ⟨[], []⟩ "token-ticker" wReminderEv).pendingCharges
      "token-ticker" = some ⟨500, "X"⟩ ∧
    mapGet (handleX402Event (handleX402Event ⟨[], []⟩ "token-ticker" wReminderEv)
        "token-ticker" wRenewedEv).spendTotals "token-ticker" =
      some ⟨confirmedRaw (handleX402Event ⟨[], []⟩ "token-ticker" wReminderEv)
        "token-ticker" + 500, "X"⟩ ∧
    mapGet (handleX402Event (handleX402Event ⟨[], []⟩ "token-ticker" wReminderEv)
        "token-ticker" wRenewedEv).pendingCharges "token-ticker" = none := by
  have h := spendLedger_pending_confirmed ⟨[], []⟩ "token-ticker" "amount=500 asset=X"
    500 "X" wReminderEv wRenewedEv (by decide) (Or.inl rfl) rfl (by rfl) rfl
  exact ⟨h.1, h.2.2.1, h.2.2.2.1⟩

/-! ## Claim C5 (corrected) -/

/-- C5 counterexample: constructing a client with the in-band strategy
against the version-1 schema path succeeds — the constructor emits no
error (its effect list is empty) and yields a normally usable session —
so the configuration error is not reported at construction time.  The
error surfaces only when a renewal is attempted: after connecting, the
delivery of a renewal reminder emits the error event and leaves the
session state unchanged (non-fatal). -/
theorem streamClient_v1_inband_construction_no_error :
    (mkStreamClient wV1InbandConfig).2 = [] ∧
    (mkStreamClient wV1InbandConfig).1.schemaVersion = "v1" ∧
    (sessStep wV1InbandConnected (.deliverX402 wReminderEv)).2 =
      [.emitError "inband renewal requires v2 schema"] ∧
    (sessStep wV1InbandConnected (.deliverX402 wReminderEv)).1 = wV1InbandConnected := by
  refine ⟨rfl, rfl, ?_, ?_⟩ <;> rfl

/-- C5 (amended): the in-band-against-version-1 mismatch is not checked
at construction — the constructor is total and emits nothing for every
config — and the configuration error is instead reported when the first
renewal is attempted: on delivery of a `renewal_reminder` or
`payment_required` frame, a session holding a token whose schema version
is not v2 and whose strategy is in-band emits exactly the error
`inband renewal requires v2 schema`, issues no renewal request, and
keeps its state, so the session continues rather than dying. -/
theorem streamClient_v1_inband_renewal_error :
    (∀ cfg : StreamClientConfig, (mkStreamClient cfg).2 = []) ∧
    (∀ (st : ClientState) (e : WsX402Ev) (u t : String),
      st.renewUrl = some u → st.currentToken = some t →
      st.config.renewMethod = RenewMethod.inband → st.schemaVersion ≠ "v2" →
      (e.op = "renewal_reminder" ∨ e.op = "payment_required") →
      handleX402Init st e = (st, [.emitError "inband renewal requires v2 schema"])) := by
  constructor
  · intro cfg
    rfl
  · intro st e u t hu ht hm hv hop
    unfold handleX402Init
    rw [hu, ht]
    have hmh : ¬ st.config.renewMethod = RenewMethod.http := by
      rw [hm]
      decide
    simp only [if_pos hop, if_neg hmh, if_pos hv]

/-- Witness for C5 (amended) at the concrete v1 in-band session. -/
theorem streamClient_v1_inband_renewal_error_witness :
    (mkStreamClient wV1InbandConfig).2 = [] ∧
    handleX402Init wV1InbandConnected wReminderEv =
      (wV1InbandConnected, [.emitError "inband renewal requires v2 schema"]) :=
  ⟨streamClient_v1_inband_renewal_error.1 wV1InbandConfig,
   streamClient_v1_inband_renewal_error.2 wV1InbandConnected wReminderEv
     (buildRenewUrl "http://localhost:3000" "token-ticker" "v1") "tok0"
     rfl rfl rfl (by decide) (Or.inl rfl)⟩

/-! ## Lemmas about lease-token usage -/

theorem handleX402Init_request_token (st : ClientState) (e : WsX402Ev) (tok : String)
    (h : tok ∈ renewRequestTokens (handleX402Init st e).2) : st.currentToken = some tok := by
  unfold handleX402Init at h
  cases hru : st.renewUrl with
  | none =>
    rw [hru] at h
    simp [renewRequestTokens] at h
  | some u =>
    cases hct : st.currentToken with
    | none =>
      rw [hru, hct] at h
      simp [renewRequestTokens] at h
    | some t =>
      rw [hru, hct] at h
      dsimp only at h
      by_cases hop : e.op = "renewal_reminder" ∨ e.op = "payment_required"
      · rw [if_pos hop] at h
        by_cases hm : st.config.renewMethod = RenewMethod.http
        · rw [if_pos hm] at h
          simp [renewRequestTokens, List.filterMap] at h
          rw [h]
        · rw [if_neg hm] at h
          by_cases hv : st.schemaVersion ≠ "v2"
          · rw [if_pos hv] at h
            simp [renewRequestTokens, List.filterMap] at h
          · rw [if_neg hv] at h
            simp [renewRequestTokens, List.filterMap] at h
            rw [h]
      · rw [if_neg hop] at h
        simp [renewRequestTokens] at h

theorem sessStep_request_token (st : ClientState) (a : SessAction) (tok : String)
    (h : tok ∈ renewRequestTokens (sessStep st a).2) : isCurrent st tok := by
  cases a with
  | connectOk t =>
    simp [sessStep, renewRequestTokens, List.filterMap] at h
  | deliverX402 e =>
    exact handleX402Init_request_token st e tok h
  | httpRenewOk t =>
    simp [sessStep, completeHttpRenew, renewRequestTokens, List.filterMap] at h
  | inbandRenewOk =>
    simp [sessStep, renewRequestTokens, List.filterMap] at h
  | renewFail m =>
    simp [sessStep, renewRequestTokens, List.filterMap] at h

/-! ## Claim C8 -/

/-- C8: in every state at most one lease token is current (the session
stores a single `currentToken`); every renewal request — HTTP or in-band
— issued by a step of the session carries exactly the token that is
current in the state the step starts from, i.e. the current token at the
moment the renewal is initiated; hence along any action trace from any
initial state, a token that is not current at step `i` (in particular
one replaced by an earlier successful renewal and never reinstated) is
never used to sign the renewal issued at step `i`. -/
theorem session_lease_token_usage :
    (∀ (st : ClientState) (t₁ t₂ : String), isCurrent st t₁ → isCurrent st t₂ → t₁ = t₂) ∧
    (∀ (st : ClientState) (a : SessAction) (tok : String),
      tok ∈ renewRequestTokens (sessStep st a).2 → isCurrent st tok) ∧
    (∀ (st0 : ClientState) (acts : List SessAction) (i : Nat) (h : i < acts.length)
      (tok : String),
      tok ∈ renewRequestTokens (sessStep (sessRun st0 (acts.take i)) (acts.get ⟨i, h⟩)).2 →
      isCurrent (sessRun st0 (acts.take i)) tok) ∧
    (∀ (st0 : ClientState) (acts : List SessAction) (i : Nat) (h : i < acts.length)
      (tok : String), ¬ isCurrent (sessRun st0 (acts.take i)) tok →
      tok ∉ renewRequestTokens (sessStep (sessRun st0 (acts.take i)) (acts.get ⟨i, h⟩)).2) := by
  refine ⟨?_, sessStep_request_token, ?_, ?_⟩
  · intro st t₁ t₂ h₁ h₂
    unfold isCurrent at h₁ h₂
    rw [h₁] at h₂
    exact Option.some_inj.mp h₂
  · intro st0 acts i h tok hmem
    exact sessStep_request_token _ _ tok hmem
  · intro st0 acts i h tok hnc hmem
    exact hnc (sessStep_request_token _ _ tok hmem)

/-- Witness for C8: on the connected sample session with current token
`tok0`, the renewal request issued on a reminder carries `tok0`. -/
theorem session_lease_token_usage_witness :
    isCurrent
      (sessStep (mkStreamClient
        { httpBase := "http://localhost:3000"
          schemaPath := "/v2/schema/stream/token-ticker"
          renewMethod := RenewMethod.http
          streamId := "token-ticker" }).1 (.connectOk "tok0")).1 "tok0" :=
  session_lease_token_usage.2.1
    (sessStep (mkStreamClient
      { httpBase := "http://localhost:3000"
        schemaPath := "/v2/schema/stream/token-ticker"
        renewMethod := RenewMethod.http
        streamId := "token-ticker" }).1 (.connectOk "tok0")).1
    (.deliverX402 wReminderEv) "tok0" (by decide)
